import Mathlib

/-!
# `f`: concurrent literal search over directory trees

A shallow embedding of `main.go`.  The program is a set of goroutines
(`main`, one `walkDir` per directory, the closing goroutine) that share a
`sync.WaitGroup`, two unbuffered channels (`results`, `count`) and two
buffered channels used as counting semaphores (`dirsSema`, `filesSema`).

The embedding is an interleaving semantics: a `State` holds the program
counter of every goroutine and the shared objects, `step` executes one
atomic action of one goroutine (or one rendezvous on an unbuffered channel),
and a run is a schedule, a list of `Action`s.  The filesystem, the flag `-r`
and the positional arguments are the environment `Env`.
-/

namespace F

/-- A Go byte slice. -/
abbrev Bytes := List UInt8

/-- The conversion `[]byte(s)`: the UTF-8 bytes of a string. -/
def bytesOf (s : String) : Bytes := s.data.flatMap String.utf8EncodeChar

/-- The function `bytes.Contains(b, sub)`: `sub` occurs in `b` as a contiguous block. -/
def bytesContains (b sub : Bytes) : Bool := decide (sub <:+: b)

/-- The part of `os.FileInfo` that `walkDir` looks at: `Name()` and `IsDir()`. -/
structure DirEntry where
  name : String
  isDir : Bool
deriving DecidableEq, Repr

/-- What the program is run against: the filesystem calls, `filepath.Join`,
the value of the flag `-r` and the positional arguments `flag.Args()`.
`none` stands for a call that returns a non-nil error. -/
structure Env where
  readDir : String → Option (List DirEntry)
  readFile : String → Option Bytes
  join : String → String → String
  recursive : Bool
  args : List String

/-- Capacity of `dirsSema` (`make(chan struct{}, 20)`). -/
def dirsSemaCap : Nat := 20

/-- Capacity of `filesSema` (`make(chan struct{}, 180)`). -/
def filesSemaCap : Nat := 180

/-- The value `query := []byte(args[0])` of `main`. -/
def queryOf (args : List String) : Bytes := bytesOf (args.headD "")

/-- The value of `roots` in `main`: `["."]` for a single argument, else `args[1:]`. -/
def rootsOf (args : List String) : List String :=
  if args.length = 1 then ["."] else args.drop 1

/-- The value `dirents(dir)` returns: the entries, or `nil` when `ReadDir` fails. -/
def dirents (env : Env) (dir : String) : List DirEntry :=
  match env.readDir dir with
  | none => []
  | some entries => entries

/-- The value `checkFile` computes from the result of `ReadFile`. -/
def checkRead (query : Bytes) : Option Bytes → Bool
  | none => false
  | some b => bytesContains b query

/-- The value `checkFile(query, name)` returns. -/
def checkFile (env : Env) (query : Bytes) (name : String) : Bool :=
  checkRead query (env.readFile name)

/-- Program counter of a `walkDir` goroutine (line numbers of `main.go`). -/
inductive WalkPc where
  /-- line 90: about to send a token on `dirsSema` -/
  | enter
  /-- line 92: token held, `ReadDir` not yet called -/
  | listing
  /-- lines 93-97: `ReadDir` returned, token held until `dirents` returns -/
  | listed (r : Option (List DirEntry))
  /-- line 69: the entries the `for` loop has not processed yet -/
  | loop (rest : List DirEntry)
  /-- line 74: `n.Add(1)` done, child not yet spawned -/
  | registered (name : String) (rest : List DirEntry)
  /-- line 77: blocked in `count <- struct{}{}` -/
  | sendCount (name : String) (rest : List DirEntry)
  /-- line 105: about to send a token on `filesSema` -/
  | acquire (name : String) (rest : List DirEntry)
  /-- line 107: token held, `ReadFile` not yet called -/
  | reading (name : String) (rest : List DirEntry)
  /-- lines 108-112: `ReadFile` returned, token held until `checkFile` returns -/
  | read (name : String) (r : Option Bytes) (rest : List DirEntry)
  /-- line 79: blocked in `results <- name` -/
  | sendResult (name : String) (rest : List DirEntry)
  /-- line 68: the deferred `n.Done()` has run -/
  | finished
deriving DecidableEq, Repr

/-- A `walkDir` goroutine: its arguments `query` and `dir`, and where it is. -/
structure Walker where
  query : Bytes
  dir : String
  pc : WalkPc
deriving DecidableEq, Repr

/-- Program counter of `main`. -/
inductive MainPc where
  /-- line 20 -/
  | entry
  /-- line 38: roots not yet launched -/
  | launch (rest : List String)
  /-- line 40: `n.Add(1)` done, walker of `root` not yet spawned -/
  | registered (root : String) (rest : List String)
  /-- line 42: about to spawn the closing goroutine -/
  | startCloser
  /-- line 49: in the `select` of the consumer loop -/
  | select
  /-- `main` has returned -/
  | returned
deriving DecidableEq, Repr

/-- Program counter of the goroutine of lines 42-45. -/
inductive CloserPc where
  | absent
  /-- line 43: in `n.Wait()` -/
  | waiting
  /-- line 44: `n.Wait()` returned, `close(results)` not yet called -/
  | woken
  | exited
deriving DecidableEq, Repr

/-- A line written to standard output. -/
inductive OutLine where
  /-- line 22 -/
  | noArguments
  /-- line 56: a match -/
  | path (p : String)
  /-- line 61: `Found %d matches in %d files` -/
  | found (nmatches nfiles : Nat)
  /-- line 62: `Took %s` -/
  | took
deriving DecidableEq, Repr

/-- The global state.  `nmatches` and `nfiles` are `int64` in the source; they
only count up from zero by one per received event, so they are kept as
natural numbers.  `visited` is a history variable (the tokens on `count`
carry no data): the file each received token was sent for. -/
structure State where
  mainPc : MainPc
  closer : CloserPc
  walkers : List Walker
  /-- the counter of the `sync.WaitGroup` `n` -/
  wg : Int
  /-- tokens in the buffer of `dirsSema` -/
  dirsSema : Nat
  /-- tokens in the buffer of `filesSema` -/
  filesSema : Nat
  /-- `results` has been closed -/
  closed : Bool
  /-- a run-time panic happened (send on or close of a closed channel,
  negative `WaitGroup` counter) -/
  panicked : Bool
  nmatches : Nat
  nfiles : Nat
  stdout : List OutLine
  /-- number of diagnostics written to standard error -/
  stderr : Nat
  visited : List String
deriving DecidableEq, Repr

/-- The state when `main` is entered. -/
def init : State :=
  { mainPc := .entry, closer := .absent, walkers := [], wg := 0,
    dirsSema := 0, filesSema := 0, closed := false, panicked := false,
    nmatches := 0, nfiles := 0, stdout := [], stderr := 0, visited := [] }

/-- Who moves: `main`, the closing goroutine, or the `i`-th spawned walker.
A rendezvous on `count` or `results` is the sender's action. -/
inductive Action where
  | main
  | closer
  | walker (i : Nat)
deriving DecidableEq, Repr

/-- One action of `main` (lines 17-63). -/
def stepMain (env : Env) (s : State) : Option State :=
  match s.mainPc with
  | .entry =>
    if env.args.length = 0 then
      some { s with mainPc := .returned, stdout := s.stdout ++ [.noArguments] }
    else some { s with mainPc := .launch (rootsOf env.args) }
  | .launch [] => some { s with mainPc := .startCloser }
  | .launch (root :: rest) =>
    some { s with mainPc := .registered root rest, wg := s.wg + 1 }
  | .registered root rest =>
    some { s with mainPc := .launch rest,
                  walkers := s.walkers ++ [⟨queryOf env.args, root, .enter⟩] }
  | .startCloser => some { s with mainPc := .select, closer := .waiting }
  | .select =>
    if s.closed then
      some { s with mainPc := .returned,
                    stdout := s.stdout ++ [.found s.nmatches s.nfiles, .took] }
    else none
  | .returned => none

/-- One action of the closing goroutine (the function literal of lines 42-45). -/
def stepCloser (s : State) : Option State :=
  match s.closer with
  | .waiting => if s.wg = 0 then some { s with closer := .woken } else none
  | .woken =>
    if s.closed then some { s with panicked := true }
    else some { s with closer := .exited, closed := true }
  | _ => none

/-- One action of the walker `w`, which is the `i`-th walker of `s`: `walkDir`
(lines 67-83) with its calls of `dirents` (lines 89-98) and of `checkFile`
(lines 104-113) followed into their bodies. -/
def stepWalker (env : Env) (s : State) (i : Nat) (w : Walker) : Option State :=
  match w.pc with
  | .enter =>
    if s.dirsSema < dirsSemaCap then
      some { s with dirsSema := s.dirsSema + 1,
                    walkers := s.walkers.set i { w with pc := .listing } }
    else none
  | .listing =>
    some { s with walkers := s.walkers.set i { w with pc := .listed (env.readDir w.dir) } }
  | .listed r =>
    if 0 < s.dirsSema then
      some { s with dirsSema := s.dirsSema - 1,
                    stderr := if r.isNone then s.stderr + 1 else s.stderr,
                    walkers := s.walkers.set i { w with pc := .loop (r.getD []) } }
    else none
  | .loop [] =>
    if s.wg ≤ 0 then some { s with panicked := true }
    else some { s with wg := s.wg - 1,
                       walkers := s.walkers.set i { w with pc := .finished } }
  | .loop (entry :: rest) =>
    if entry.isDir then
      if env.recursive then
        some { s with wg := s.wg + 1,
                      walkers := s.walkers.set i
                        { w with pc := .registered (env.join w.dir entry.name) rest } }
      else some { s with walkers := s.walkers.set i { w with pc := .loop rest } }
    else
      some { s with walkers := s.walkers.set i
                      { w with pc := .sendCount (env.join w.dir entry.name) rest } }
  | .registered name rest =>
    some { s with walkers := s.walkers.set i { w with pc := .loop rest }
                               ++ [⟨w.query, name, .enter⟩] }
  | .sendCount name rest =>
    if s.mainPc = .select then
      some { s with nfiles := s.nfiles + 1, visited := s.visited ++ [name],
                    walkers := s.walkers.set i { w with pc := .acquire name rest } }
    else none
  | .acquire name rest =>
    if s.filesSema < filesSemaCap then
      some { s with filesSema := s.filesSema + 1,
                    walkers := s.walkers.set i { w with pc := .reading name rest } }
    else none
  | .reading name rest =>
    some { s with walkers := s.walkers.set i
                    { w with pc := .read name (env.readFile name) rest } }
  | .read name r rest =>
    if 0 < s.filesSema then
      some { s with filesSema := s.filesSema - 1,
                    stderr := if r.isNone then s.stderr + 1 else s.stderr,
                    walkers := s.walkers.set i
                      { w with pc := if checkRead w.query r then .sendResult name rest
                                     else .loop rest } }
    else none
  | .sendResult name rest =>
    if s.closed then some { s with panicked := true }
    else if s.mainPc = .select then
      some { s with nmatches := s.nmatches + 1, stdout := s.stdout ++ [.path name],
                    walkers := s.walkers.set i { w with pc := .loop rest } }
    else none
  | .finished => none

/-- One step of the program: the action `a`, when it is enabled. -/
def step (env : Env) (s : State) (a : Action) : Option State :=
  if s.panicked then none
  else
    match a with
    | .main => stepMain env s
    | .closer => stepCloser s
    | .walker i =>
      match s.walkers[i]? with
      | none => none
      | some w => stepWalker env s i w

/-- Run a schedule from `s`; `none` when some action of it is not enabled. -/
def run (env : Env) (s : State) : List Action → Option State
  | [] => some s
  | a :: sched =>
    match step env s a with
    | none => none
    | some s' => run env s' sched

/-- The states the program can be in. -/
def Reachable (env : Env) (s : State) : Prop :=
  ∃ sched, run env init sched = some s

/-- The paths printed as matches, in order. -/
def matchLines : List OutLine → List String
  | [] => []
  | .path p :: ls => p :: matchLines ls
  | _ :: ls => matchLines ls

/-- The files a walker started on `dir` sends a token for, itself and its
descendants, in depth-first order; `fuel` bounds the depth. -/
def walkFiles (env : Env) : Nat → String → List String
  | 0, _ => []
  | fuel + 1, dir =>
    (dirents env dir).flatMap fun entry =>
      if entry.isDir then
        if env.recursive then walkFiles env fuel (env.join dir entry.name) else []
      else [env.join dir entry.name]

/-- The traversal from `dir` stays within depth `fuel`. -/
def covered (env : Env) : Nat → String → Bool
  | 0, _ => false
  | fuel + 1, dir =>
    (dirents env dir).all fun entry =>
      !entry.isDir || !env.recursive || covered env fuel (env.join dir entry.name)

/-- All files the run visits: `walkFiles` of every root. -/
def allFiles (env : Env) (fuel : Nat) : List String :=
  (rootsOf env.args).flatMap (walkFiles env fuel)

/-! ## Quantities the invariants speak about -/

/-- Sum of a measure over the walkers. -/
def wsum {M : Type} [AddCommMonoid M] (f : Walker → M) (ws : List Walker) : M :=
  (ws.map f).sum

/-- The walker has not yet called `n.Done()`: 1, else 0. -/
def active (w : Walker) : Nat :=
  match w.pc with
  | .finished => 0
  | _ => 1

/-- The walker has registered a child it has not yet spawned: 1, else 0. -/
def pendingReg (w : Walker) : Nat :=
  match w.pc with
  | .registered _ _ => 1
  | _ => 0

/-- The walker is inside the protected section of `dirents`: 1, else 0. -/
def holdsDir (w : Walker) : Nat :=
  match w.pc with
  | .listing => 1
  | .listed _ => 1
  | _ => 0

/-- The walker is inside the protected section of `checkFile`: 1, else 0. -/
def holdsFile (w : Walker) : Nat :=
  match w.pc with
  | .reading _ _ => 1
  | .read _ _ _ => 1
  | _ => 0

/-- The walker's token on `count` was received and its `checkFile` and send on
`results` for that file are not yet over: 1, else 0. -/
def postVisit (w : Walker) : Nat :=
  match w.pc with
  | .acquire _ _ => 1
  | .reading _ _ => 1
  | .read _ _ _ => 1
  | .sendResult _ _ => 1
  | _ => 0

/-- `main` has registered a root it has not yet spawned: 1, else 0. -/
def mainReg : MainPc → Nat
  | .registered _ _ => 1
  | _ => 0

/-- How the program counters of `main` and of the closing goroutine, the
flag `closed` and the counter go together. -/
def PhaseOk (env : Env) (s : State) : Prop :=
  match s.mainPc with
  | .entry => s.closer = .absent ∧ s.closed = false ∧ s.walkers = [] ∧ s.wg = 0
  | .launch _ => s.closer = .absent ∧ s.closed = false
  | .registered _ _ => s.closer = .absent ∧ s.closed = false
  | .startCloser => s.closer = .absent ∧ s.closed = false
  | .select =>
    (s.closer = .waiting ∧ s.closed = false) ∨
    (s.closer = .woken ∧ s.closed = false ∧ s.wg = 0) ∨
    (s.closer = .exited ∧ s.closed = true ∧ s.wg = 0)
  | .returned =>
    (s.closer = .exited ∧ s.closed = true ∧ s.wg = 0) ∨
    (s.closer = .absent ∧ s.closed = false ∧ s.walkers = [] ∧ s.wg = 0 ∧ env.args = [])

/-- The safety invariant of the run. -/
structure Safe (env : Env) (s : State) : Prop where
  noPanic : s.panicked = false
  wgEq : s.wg = ((wsum active s.walkers + wsum pendingReg s.walkers + mainReg s.mainPc : Nat) : Int)
  dirsEq : s.dirsSema = wsum holdsDir s.walkers
  dirsLe : s.dirsSema ≤ dirsSemaCap
  filesEq : s.filesSema = wsum holdsFile s.walkers
  filesLe : s.filesSema ≤ filesSemaCap
  matchLe : s.nmatches + wsum postVisit s.walkers ≤ s.nfiles
  nfilesEq : s.nfiles = s.visited.length
  nmatchesEq : s.nmatches = (matchLines s.stdout).length
  phase : PhaseOk env s
  found : ∀ nm nf, OutLine.found nm nf ∈ s.stdout →
    s.mainPc = .returned ∧ nm = s.nmatches ∧ nf = s.nfiles

/-- The loop of a walker on `dir` is at the non-directory entry `name`, with
`rest` still to come. -/
def FileOf (env : Env) (dir name : String) (rest : List DirEntry) : Prop :=
  ∃ e : DirEntry, (e :: rest) <:+ dirents env dir ∧ e.isDir = false ∧ name = env.join dir e.name

/-- What the program counter of a walker says about the filesystem. -/
def WalkerOk (env : Env) (w : Walker) : Prop :=
  w.query = queryOf env.args ∧
  match w.pc with
  | .enter => True
  | .listing => True
  | .listed r => r = env.readDir w.dir
  | .loop rest => rest <:+ dirents env w.dir
  | .registered name rest =>
    ∃ e : DirEntry, (e :: rest) <:+ dirents env w.dir ∧ e.isDir = true ∧
      name = env.join w.dir e.name
  | .sendCount name rest => FileOf env w.dir name rest
  | .acquire name rest => FileOf env w.dir name rest
  | .reading name rest => FileOf env w.dir name rest
  | .read name r rest => FileOf env w.dir name rest ∧ r = env.readFile name
  | .sendResult name rest => FileOf env w.dir name rest ∧ checkFile env w.query name = true
  | .finished => True

/-- The path `p` is a non-directory entry of a listed directory and
`checkFile` holds of it. -/
def MatchOk (env : Env) (p : String) : Prop :=
  (∃ dir, ∃ e : DirEntry, e ∈ dirents env dir ∧ e.isDir = false ∧ p = env.join dir e.name) ∧
    checkFile env (queryOf env.args) p = true

/-- The local invariant: every walker is where the filesystem says, and every
printed match is a match. -/
structure Local (env : Env) (s : State) : Prop where
  walkersOk : ∀ w ∈ s.walkers, WalkerOk env w
  outOk : ∀ p ∈ matchLines s.stdout, MatchOk env p

/-! ## Accounting: what is still to come -/

/-- The files the entry `e` of `dir` stands for: itself, or, under `-r`,
the files below the subdirectory. -/
def entryFiles (env : Env) (fuel : Nat) (dir : String) (e : DirEntry) : List String :=
  if e.isDir then
    if env.recursive then walkFiles env fuel (env.join dir e.name) else []
  else [env.join dir e.name]

/-- The traversal below the entry `e` of `dir` stays within depth `fuel`. -/
def entryCovered (env : Env) (fuel : Nat) (dir : String) (e : DirEntry) : Bool :=
  !e.isDir || !env.recursive || covered env fuel (env.join dir e.name)

/-- The entries the loop of a walker has not yet started on. -/
def restOf : WalkPc → List DirEntry
  | .enter => []
  | .listing => []
  | .listed r => r.getD []
  | .loop rest => rest
  | .registered _ rest => rest
  | .sendCount _ rest => rest
  | .acquire _ rest => rest
  | .reading _ rest => rest
  | .read _ _ rest => rest
  | .sendResult _ rest => rest
  | .finished => []

/-- The tokens on `count` still to come for what the walker is at. -/
def headFiles (env : Env) (fuel : Nat) (w : Walker) : List String :=
  match w.pc with
  | .enter => walkFiles env fuel w.dir
  | .listing => walkFiles env fuel w.dir
  | .registered name _ => walkFiles env fuel name
  | .sendCount name _ => [name]
  | _ => []

/-- The tokens on `count` the walker, and the walkers it has registered but
not spawned, will still send. -/
def pendFiles (env : Env) (fuel : Nat) (w : Walker) : List String :=
  headFiles env fuel w ++ (restOf w.pc).flatMap (entryFiles env fuel w.dir)

/-- The sends on `results` still to come for what the walker is at. -/
def headMatches (env : Env) (fuel : Nat) (w : Walker) : List String :=
  match w.pc with
  | .enter => (walkFiles env fuel w.dir).filter (checkFile env (queryOf env.args))
  | .listing => (walkFiles env fuel w.dir).filter (checkFile env (queryOf env.args))
  | .registered name _ => (walkFiles env fuel name).filter (checkFile env (queryOf env.args))
  | .sendCount name _ => [name].filter (checkFile env (queryOf env.args))
  | .acquire name _ => [name].filter (checkFile env (queryOf env.args))
  | .reading name _ => [name].filter (checkFile env (queryOf env.args))
  | .read name r _ => if checkRead w.query r then [name] else []
  | .sendResult name _ => [name]
  | _ => []

/-- The sends on `results` the walker, and the walkers it has registered but
not spawned, will still do. -/
def pendMatches (env : Env) (fuel : Nat) (w : Walker) : List String :=
  headMatches env fuel w ++
    ((restOf w.pc).flatMap (entryFiles env fuel w.dir)).filter (checkFile env (queryOf env.args))

/-- The traversal still ahead of the walker stays within depth `fuel`. -/
def WalkerCovered (env : Env) (fuel : Nat) (w : Walker) : Prop :=
  (match w.pc with
    | .enter => covered env fuel w.dir = true
    | .listing => covered env fuel w.dir = true
    | .registered name _ => covered env fuel name = true
    | _ => True) ∧
  ∀ e ∈ restOf w.pc, entryCovered env fuel w.dir e = true

/-- The roots `main` has not yet spawned a walker for. -/
def mainRoots (env : Env) : MainPc → List String
  | .entry => rootsOf env.args
  | .launch rest => rest
  | .registered root rest => root :: rest
  | _ => []

/-- The accounting invariant, for a traversal that stays within depth `fuel`:
what was received and what is still to come make up `allFiles`, and the same
for the matches. -/
structure Account (env : Env) (fuel : Nat) (s : State) : Prop where
  cov : ∀ w ∈ s.walkers, WalkerCovered env fuel w
  mainCov : ∀ r ∈ mainRoots env s.mainPc, covered env fuel r = true
  files : (↑s.visited : Multiset String)
      + wsum (fun w => (↑(pendFiles env fuel w) : Multiset String)) s.walkers
      + ↑((mainRoots env s.mainPc).flatMap (walkFiles env fuel))
    = ↑(allFiles env fuel)
  found : (↑(matchLines s.stdout) : Multiset String)
      + wsum (fun w => (↑(pendMatches env fuel w) : Multiset String)) s.walkers
      + ↑(((mainRoots env s.mainPc).flatMap (walkFiles env fuel)).filter
            (checkFile env (queryOf env.args)))
    = ↑((allFiles env fuel).filter (checkFile env (queryOf env.args)))

/-! ## Termination measure -/

/-- Steps a walker on `dir` and its descendants still take once `ReadDir`
has returned; `fuel` bounds the depth. -/
def walkCost (env : Env) : Nat → String → Nat
  | 0, _ => 0
  | fuel + 1, dir =>
    2 + ((dirents env dir).map fun entry =>
      if entry.isDir then
        if env.recursive then 4 + walkCost env fuel (env.join dir entry.name) else 1
      else 6).sum

/-- Steps the entry `e` of `dir` costs. -/
def entryCost (env : Env) (fuel : Nat) (dir : String) (e : DirEntry) : Nat :=
  if e.isDir then
    if env.recursive then 4 + walkCost env fuel (env.join dir e.name) else 1
  else 6

/-- Steps left for what the walker is at. -/
def headCost (env : Env) (fuel : Nat) (w : Walker) : Nat :=
  match w.pc with
  | .enter => 2 + walkCost env fuel w.dir
  | .listing => 1 + walkCost env fuel w.dir
  | .listed _ => 2
  | .loop _ => 1
  | .registered name _ => 4 + walkCost env fuel name
  | .sendCount _ _ => 6
  | .acquire _ _ => 5
  | .reading _ _ => 4
  | .read _ _ _ => 3
  | .sendResult _ _ => 2
  | .finished => 0

/-- Steps left for the walker and the walkers it has registered. -/
def walkerCost (env : Env) (fuel : Nat) (w : Walker) : Nat :=
  headCost env fuel w + ((restOf w.pc).map (entryCost env fuel w.dir)).sum

/-- Steps left for `main`, the walkers of the roots it has not spawned included. -/
def mainCost (env : Env) (fuel : Nat) : MainPc → Nat
  | .entry => 6 + ((rootsOf env.args).map fun r => 4 + walkCost env fuel r).sum
  | .launch rest => 5 + (rest.map fun r => 4 + walkCost env fuel r).sum
  | .registered root rest =>
    8 + walkCost env fuel root + (rest.map fun r => 4 + walkCost env fuel r).sum
  | .startCloser => 4
  | .select => 1
  | .returned => 0

/-- Steps left for the closing goroutine. -/
def closerCost : CloserPc → Nat
  | .absent => 2
  | .waiting => 2
  | .woken => 1
  | .exited => 0

/-- The termination measure: a bound on the number of steps still possible. -/
def stepsLeft (env : Env) (fuel : Nat) (s : State) : Nat :=
  mainCost env fuel s.mainPc + closerCost s.closer + wsum (walkerCost env fuel) s.walkers

/-! ## Matches among the visited files -/

/-- The send on `results` still to come for the file whose token the walker
has already delivered. -/
def postMatches (env : Env) (w : Walker) : List String :=
  match w.pc with
  | .acquire name _ => [name].filter (checkFile env (queryOf env.args))
  | .reading name _ => [name].filter (checkFile env (queryOf env.args))
  | .read name r _ => if checkRead w.query r then [name] else []
  | .sendResult name _ => [name]
  | _ => []

/-- The output invariant: the printed matches and those about to be sent are
the visited files that `checkFile` accepts, and a run with arguments that has
returned has printed its summary. -/
structure Output (env : Env) (s : State) : Prop where
  sub : (↑(matchLines s.stdout) : Multiset String)
      + wsum (fun w => (↑(postMatches env w) : Multiset String)) s.walkers
    = ↑(s.visited.filter (checkFile env (queryOf env.args)))
  summary : s.mainPc = .returned → env.args ≠ [] →
    OutLine.found s.nmatches s.nfiles ∈ s.stdout

/-! ## Single-level scans, counters of events along a run -/

/-- The paths of the direct non-directory entries of `root`. -/
def rootFiles (env : Env) (root : String) : List String :=
  ((dirents env root).filter fun e => !e.isDir).map fun e => env.join root e.name

/-- A single-level scan of `root`: its direct non-directory entries whose
content contains the query. -/
def scanRoot (env : Env) (root : String) : List String :=
  (rootFiles env root).filter (checkFile env (queryOf env.args))

/-- The loop of lines 38-41 has registered all roots: `main` does no further
`n.Add(1)`. -/
def launchDone : MainPc → Bool
  | .entry => false
  | .launch [] => true
  | .launch (_ :: _) => false
  | .registered _ [] => true
  | .registered _ (_ :: _) => false
  | .startCloser => true
  | .select => true
  | .returned => true

/-- How many steps of the schedule bring the `WaitGroup` counter from a
non-zero value to zero. -/
def zeroHits (env : Env) : State → List Action → Nat
  | _, [] => 0
  | s, a :: sched =>
    match step env s a with
    | none => 0
    | some s' => (if s.wg ≠ 0 ∧ s'.wg = 0 then 1 else 0) + zeroHits env s' sched

/-- How many steps of the schedule close `results`. -/
def closeCount (env : Env) : State → List Action → Nat
  | _, [] => 0
  | s, a :: sched =>
    match step env s a with
    | none => 0
    | some s' =>
      (if s.closed = false ∧ s'.closed = true then 1 else 0) + closeCount env s' sched

/-! ## Concrete runs -/

/-- A join of a directory and an entry name, as `filepath.Join` does for
clean relative paths. -/
def slashJoin (dir name : String) : String := dir ++ "/" ++ name

/-- Scenario 2 of the specification: `t2/{x.txt="foo", sub/y.txt="foo"}`,
query `foo`, no flag, root `t2`. -/
def t2Env : Env where
  readDir := fun d =>
    if d = "t2" then some [⟨"sub", true⟩, ⟨"x.txt", false⟩]
    else if d = "t2/sub" then some [⟨"y.txt", false⟩] else none
  readFile := fun p =>
    if p = "t2/x.txt" then some (bytesOf "foo")
    else if p = "t2/sub/y.txt" then some (bytesOf "foo") else none
  join := slashJoin
  recursive := false
  args := ["foo", "t2"]

/-- A schedule of scenario 2: `main` launches the walker and starts the
closing goroutine, the walker runs to its end, `results` is closed. -/
def t2Sched : List Action :=
  List.replicate 5 .main ++ List.replicate 11 (.walker 0) ++ [.closer, .closer, .main]

/-- The state scenario 2 ends in. -/
def t2Final : State :=
  { mainPc := .returned, closer := .exited,
    walkers := [⟨bytesOf "foo", "t2", .finished⟩],
    wg := 0, dirsSema := 0, filesSema := 0, closed := true, panicked := false,
    nmatches := 1, nfiles := 1,
    stdout := [.path "t2/x.txt", .found 1 1, .took], stderr := 0,
    visited := ["t2/x.txt"] }

/-- Scenario 3 of the specification: the tree of scenario 2 under `-r`. -/
def t2RecEnv : Env := { t2Env with recursive := true }

/-- A schedule of scenario 3 in which the walkers of `t2` and of `t2/sub`
take turns. -/
def t2RecSched : List Action :=
  [.main, .main, .main, .main, .walker 0, .main, .walker 0, .walker 0, .walker 0, .walker 0,
    .walker 1, .walker 0, .walker 1, .walker 0, .walker 1, .walker 0, .walker 1, .walker 0,
    .walker 1, .walker 0, .walker 1, .walker 0, .walker 1, .walker 0, .walker 1, .walker 1,
    .walker 1, .closer, .closer, .main]

/-- The state scenario 3 ends in. -/
def t2RecFinal : State :=
  { mainPc := .returned, closer := .exited,
    walkers := [⟨bytesOf "foo", "t2", .finished⟩, ⟨bytesOf "foo", "t2/sub", .finished⟩],
    wg := 0, dirsSema := 0, filesSema := 0, closed := true, panicked := false,
    nmatches := 2, nfiles := 2,
    stdout := [.path "t2/x.txt", .path "t2/sub/y.txt", .found 2 2, .took], stderr := 0,
    visited := ["t2/x.txt", "t2/sub/y.txt"] }

/-- Scenario 5 of the specification: `t4/{readable="hit", noperm="hit"}`
with `noperm` unreadable, query `hit`, flag `-r`. -/
def t4Env : Env where
  readDir := fun d =>
    if d = "t4" then some [⟨"noperm", false⟩, ⟨"readable", false⟩] else none
  readFile := fun p => if p = "t4/readable" then some (bytesOf "hit") else none
  join := slashJoin
  recursive := true
  args := ["hit", "t4"]

/-- A schedule of scenario 5. -/
def t4Sched : List Action :=
  List.replicate 5 .main ++ List.replicate 15 (.walker 0) ++ [.closer, .closer, .main]

/-- The state scenario 5 ends in. -/
def t4Final : State :=
  { mainPc := .returned, closer := .exited,
    walkers := [⟨bytesOf "hit", "t4", .finished⟩],
    wg := 0, dirsSema := 0, filesSema := 0, closed := true, panicked := false,
    nmatches := 1, nfiles := 2,
    stdout := [.path "t4/readable", .found 1 2, .took], stderr := 1,
    visited := ["t4/noperm", "t4/readable"] }

/-- The tree of scenario 5 searched for the empty query. -/
def t4EmptyEnv : Env := { t4Env with args := ["", "t4"] }

/-- The state the search for the empty query ends in, under `t4Sched`. -/
def t4EmptyFinal : State :=
  { t4Final with walkers := [⟨[], "t4", .finished⟩] }

/-- Two roots that do not exist. -/
def twoRootsEnv : Env where
  readDir := fun _ => none
  readFile := fun _ => none
  join := slashJoin
  recursive := false
  args := ["q", "a", "b"]

/-- A schedule in which the walker of the first root is done before `main`
registers the second root. -/
def twoRootsSched : List Action :=
  List.replicate 3 .main ++ List.replicate 4 (.walker 0) ++ List.replicate 2 .main
    ++ List.replicate 4 (.walker 1) ++ [.main, .main, .closer, .closer, .main]

/-- The state `twoRootsSched` ends in. -/
def twoRootsFinal : State :=
  { mainPc := .returned, closer := .exited,
    walkers := [⟨bytesOf "q", "a", .finished⟩, ⟨bytesOf "q", "b", .finished⟩],
    wg := 0, dirsSema := 0, filesSema := 0, closed := true, panicked := false,
    nmatches := 0, nfiles := 0,
    stdout := [.found 0 0, .took], stderr := 2, visited := [] }

/-- No arguments at all (scenario 6 of the specification). -/
def noArgsEnv : Env := { t2Env with args := [] }

/-- The state a run without arguments ends in. -/
def noArgsFinal : State :=
  { init with mainPc := .returned, stdout := [.noArguments] }

/-! ## Runs -/

theorem run_append (env : Env) (s : State) (l₁ l₂ : List Action) :
    run env s (l₁ ++ l₂) = (run env s l₁).bind fun s' => run env s' l₂ := by
  induction l₁ generalizing s with
  | nil => rfl
  | cons a l ih =>
    simp only [List.cons_append, run]
    cases step env s a with
    | none => rfl
    | some s' => exact ih s'

theorem Reachable.init (env : Env) : Reachable env init := ⟨[], rfl⟩

theorem Reachable.step {env : Env} {s s' : State} {a : Action}
    (h : Reachable env s) (hs : step env s a = some s') : Reachable env s' := by
  obtain ⟨sched, hr⟩ := h
  refine ⟨sched ++ [a], ?_⟩
  simp [run_append, hr, run, hs]

theorem Reachable.run {env : Env} {s s' : State} {sched : List Action}
    (h : Reachable env s) (hs : run env s sched = some s') : Reachable env s' := by
  obtain ⟨sched₀, hr⟩ := h
  refine ⟨sched₀ ++ sched, ?_⟩
  simp [run_append, hr, hs]

/-- A property that holds initially and is kept by every step enabled in a
state that has it holds all along every run. -/
theorem run_induction {env : Env} {P : State → Prop}
    (hstep : ∀ s a s', P s → step env s a = some s' → P s')
    {s s' : State} {sched : List Action} (h0 : P s) (hr : F.run env s sched = some s') : P s' := by
  induction sched generalizing s with
  | nil => simp [F.run] at hr; exact hr ▸ h0
  | cons a l ih =>
    simp only [F.run] at hr
    cases hs : F.step env s a with
    | none => simp [hs] at hr
    | some s₁ =>
      simp only [hs] at hr
      exact ih (hstep s a s₁ h0 hs) hr

theorem reachable_induction {env : Env} {P : State → Prop} (h0 : P init)
    (hstep : ∀ s a s', P s → step env s a = some s' → P s')
    {s : State} (h : Reachable env s) : P s := by
  obtain ⟨sched, hr⟩ := h
  exact run_induction hstep h0 hr

/-! ## Sums over the walkers -/


section Sums
variable {M : Type} [AddCommMonoid M] (f : Walker → M)

theorem wsum_nil : wsum f [] = 0 := rfl

theorem wsum_append (ws₁ ws₂ : List Walker) :
    wsum f (ws₁ ++ ws₂) = wsum f ws₁ + wsum f ws₂ := by
  simp [wsum, List.sum_append]

theorem wsum_singleton (w : Walker) : wsum f [w] = f w := by
  simp [wsum]

theorem wsum_get {ws : List Walker} {i : Nat} {w : Walker} (h : ws[i]? = some w) :
    wsum f ws = f w + wsum f (ws.eraseIdx i) := by
  induction ws generalizing i with
  | nil => simp at h
  | cons x xs ih =>
    cases i with
    | zero =>
      simp at h
      simp [wsum, h]
    | succ j =>
      simp at h
      have := ih h
      simp only [wsum, List.map_cons, List.sum_cons, List.eraseIdx_cons_succ] at this ⊢
      rw [this]
      exact add_left_comm _ _ _

theorem wsum_set {ws : List Walker} {i : Nat} {w : Walker} (h : ws[i]? = some w) (w' : Walker) :
    wsum f (ws.set i w') = f w' + wsum f (ws.eraseIdx i) := by
  induction ws generalizing i with
  | nil => simp at h
  | cons x xs ih =>
    cases i with
    | zero => simp [wsum]
    | succ j =>
      simp at h
      have := ih h
      simp only [wsum, List.map_cons, List.sum_cons, List.eraseIdx_cons_succ, List.set_cons_succ]
        at this ⊢
      rw [this]
      exact add_left_comm _ _ _

end Sums


/-! ## The safety invariant -/

theorem safe_init (env : Env) : Safe env init := by
  constructor <;> simp [init, wsum, mainReg, PhaseOk, matchLines, dirsSemaCap, filesSemaCap]

theorem matchLines_append (l₁ l₂ : List OutLine) :
    matchLines (l₁ ++ l₂) = matchLines l₁ ++ matchLines l₂ := by
  induction l₁ with
  | nil => rfl
  | cons x xs ih => cases x <;> simp [matchLines, ih]

theorem safe_stepMain {env : Env} {s s' : State} (h : Safe env s)
    (hs : stepMain env s = some s') : Safe env s' := by
  obtain ⟨h1, h2, h3, h4, h5, h6, h7, h8, h9, h10, h11⟩ := h
  have h11' : ∀ nm nf, OutLine.found nm nf ∈ s.stdout → s.mainPc = .returned :=
    fun nm nf hf => (h11 nm nf hf).1
  unfold stepMain at hs
  split at hs <;> rename_i hm <;> simp only [PhaseOk, hm] at h10 <;> (try split at hs) <;>
    simp only [Option.some.injEq, reduceCtorEq] at hs <;> subst hs <;>
    refine ⟨?_, ?_, ?_, ?_, ?_, ?_, ?_, ?_, ?_, ?_, ?_⟩ <;> dsimp only <;> (try assumption) <;>
    (try simp only [wsum_append, wsum_singleton, active, pendingReg, holdsDir, holdsFile,
      postVisit, mainReg, hm, add_zero, matchLines_append, matchLines, List.append_nil,
      List.length_append, List.length_nil] at h2 h3 h5 h7 h9 h11' ⊢) <;>
    (try assumption) <;> (try omega)
  all_goals first
    | (simp only [PhaseOk]; simp_all [wsum_nil])
    | (intro nm nf hf
       try simp only [List.mem_append, List.mem_singleton, List.mem_cons, reduceCtorEq, or_false,
         List.mem_nil_iff, OutLine.found.injEq] at hf
       first
         | exact absurd (h11' nm nf hf) (by simp)
         | (rcases hf with hf | hf
            · exact absurd (h11' nm nf hf) (by simp)
            · simp [hf]))


theorem safe_stepCloser {env : Env} {s s' : State} (h : Safe env s)
    (hs : stepCloser s = some s') : Safe env s' := by
  obtain ⟨h1, h2, h3, h4, h5, h6, h7, h8, h9, h10, h11⟩ := h
  unfold stepCloser at hs
  cases hm : s.mainPc <;> simp only [PhaseOk, hm] at h10 <;>
    split at hs <;> rename_i hc <;>
    (try simp only [hc, reduceCtorEq, false_and, and_false, or_false, false_or, true_and] at h10) <;>
    (try split at hs) <;>
    simp only [Option.some.injEq, reduceCtorEq] at hs <;> subst hs <;>
    refine ⟨?_, ?_, ?_, ?_, ?_, ?_, ?_, ?_, ?_, ?_, ?_⟩ <;> dsimp only <;> (try assumption) <;>
    (try (simp only [PhaseOk, hm, reduceCtorEq, false_and, and_false, or_false, false_or,
            true_and]; tauto))
  rename_i hcl
  rw [h10.1] at hcl
  exact absurd hcl (by simp)

/-- A walker that is not finished keeps the counter positive. -/
theorem wg_pos_of_walker {env : Env} {s : State} (h : Safe env s) {i : Nat} {w : Walker}
    (hw : s.walkers[i]? = some w) (hpc : w.pc ≠ .finished) : 0 < s.wg := by
  have h2 := h.wgEq
  rw [wsum_get active hw] at h2
  have : active w = 1 := by
    unfold active
    split
    · contradiction
    · rfl
  omega

theorem phase_of_pos {env : Env} {s s' : State} (h : PhaseOk env s) (hwg : 0 < s.wg)
    (hm : s'.mainPc = s.mainPc) (hc : s'.closer = s.closer) (hcl : s'.closed = s.closed) :
    PhaseOk env s' := by
  unfold PhaseOk at h ⊢
  rw [hm, hc, hcl]
  cases hp : s.mainPc <;> simp only [hp] at h ⊢
  · omega
  · exact h
  · exact h
  · exact h
  · rcases h with h | h | h
    · exact Or.inl h
    · omega
    · omega
  · rcases h with h | h <;> omega

theorem closed_wg_zero {env : Env} {s : State} (h : PhaseOk env s) (hc : s.closed = true) :
    s.wg = 0 := by
  unfold PhaseOk at h
  split at h <;> simp_all

theorem safe_stepWalker {env : Env} {s s' : State} (h : Safe env s) {i : Nat} {w : Walker}
    (hw : s.walkers[i]? = some w) (hs : stepWalker env s i w = some s') : Safe env s' := by
  have hwg := wg_pos_of_walker h hw
  obtain ⟨h1, h2, h3, h4, h5, h6, h7, h8, h9, h10, h11⟩ := h
  have h11' : ∀ nm nf, OutLine.found nm nf ∈ s.stdout → s.mainPc = .returned :=
    fun nm nf hf => (h11 nm nf hf).1
  rw [wsum_get active hw, wsum_get pendingReg hw] at h2
  rw [wsum_get holdsDir hw] at h3
  rw [wsum_get holdsFile hw] at h5
  rw [wsum_get postVisit hw] at h7
  obtain ⟨q, dir, pc⟩ := w
  unfold stepWalker at hs
  rcases pc with _ | _ | _ | (_ | _) | _ | _ | _ | _ | _ | _ | _ <;> simp only at hs <;>
    (try split at hs) <;> (try split at hs) <;>
    simp only [Option.some.injEq, reduceCtorEq] at hs <;> subst hs <;>
    have hwg := hwg (by simp) <;>
    (try (exfalso; have := closed_wg_zero h10 (by assumption); omega)) <;>
    refine ⟨?_, ?_, ?_, ?_, ?_, ?_, ?_, ?_, ?_, ?_, ?_⟩ <;> dsimp only <;> (try assumption) <;>
    (try (exact phase_of_pos h10 hwg rfl rfl rfl)) <;>
    (try simp only [wsum_set _ hw, wsum_append, wsum_singleton, matchLines_append, matchLines,
            List.length_append, List.length_singleton, List.length_cons, List.length_nil]) <;>
    (try (simp only [active, pendingReg, holdsDir, holdsFile, postVisit, dirsSemaCap, filesSemaCap]
            at h2 h3 h4 h5 h6 h7 ⊢
          omega))
  all_goals
    intro nm nf hf
    rename_i hsel
    try simp only [List.mem_append, List.mem_singleton, reduceCtorEq, or_false] at hf
    exact absurd (h11' nm nf hf) (by simp [hsel])

theorem safe_step {env : Env} {s s' : State} {a : Action} (h : Safe env s)
    (hs : step env s a = some s') : Safe env s' := by
  unfold step at hs
  simp only [h.noPanic, Bool.false_eq_true, if_false] at hs
  cases a with
  | main => exact safe_stepMain h hs
  | closer => exact safe_stepCloser h hs
  | walker i =>
    simp only at hs
    cases hw : s.walkers[i]? with
    | none => simp [hw] at hs
    | some w =>
      simp only [hw] at hs
      exact safe_stepWalker h hw hs

theorem safe_of_reachable {env : Env} {s : State} (h : Reachable env s) : Safe env s :=
  reachable_induction (safe_init env) (fun _ _ _ hi hs => safe_step hi hs) h

/-! ## The local invariant -/

theorem forall_set {P : Walker → Prop} {ws : List Walker} {i : Nat} {w' : Walker}
    (h : ∀ w ∈ ws, P w) (h' : P w') : ∀ w ∈ ws.set i w', P w := by
  intro w hw
  rcases List.mem_or_eq_of_mem_set hw with hw | hw
  · exact h w hw
  · exact hw ▸ h'

theorem forall_set_append {P : Walker → Prop} {ws : List Walker} {i : Nat} {w' c : Walker}
    (h : ∀ w ∈ ws, P w) (h' : P w') (hc : P c) : ∀ w ∈ ws.set i w' ++ [c], P w := by
  intro w hw
  rcases List.mem_append.1 hw with hw | hw
  · exact forall_set h h' w hw
  · rw [List.mem_singleton] at hw
    exact hw ▸ hc

theorem mem_of_getElem? {ws : List Walker} {i : Nat} {w : Walker} (h : ws[i]? = some w) :
    w ∈ ws := by
  obtain ⟨hi, rfl⟩ := List.getElem?_eq_some.1 h
  exact List.getElem_mem hi

theorem local_init (env : Env) : Local env init := by
  constructor <;> simp [init, matchLines]

theorem local_stepMain {env : Env} {s s' : State} (h : Local env s)
    (hs : stepMain env s = some s') : Local env s' := by
  obtain ⟨h1, h2⟩ := h
  unfold stepMain at hs
  split at hs <;> (try split at hs) <;>
    simp only [Option.some.injEq, reduceCtorEq] at hs <;> subst hs <;>
    refine ⟨?_, ?_⟩ <;> dsimp only <;> (try assumption) <;>
    (try simpa [matchLines_append, matchLines] using h2)
  intro w hw
  rcases List.mem_append.1 hw with hw | hw
  · exact h1 w hw
  · rw [List.mem_singleton] at hw
    subst hw
    simp [WalkerOk]

theorem local_stepCloser {env : Env} {s s' : State} (h : Local env s)
    (hs : stepCloser s = some s') : Local env s' := by
  obtain ⟨h1, h2⟩ := h
  unfold stepCloser at hs
  split at hs <;> (try split at hs) <;>
    simp only [Option.some.injEq, reduceCtorEq] at hs <;> subst hs <;>
    exact ⟨h1, h2⟩

theorem suffix_of_cons_suffix {e : DirEntry} {rest l : List DirEntry}
    (h : (e :: rest) <:+ l) : rest <:+ l :=
  (List.suffix_cons e rest).trans h

theorem FileOf.rest {env : Env} {dir name : String} {rest : List DirEntry}
    (h : FileOf env dir name rest) : rest <:+ dirents env dir := by
  obtain ⟨e, he, _, _⟩ := h
  exact suffix_of_cons_suffix he

theorem FileOf.mem {env : Env} {dir name : String} {rest : List DirEntry}
    (h : FileOf env dir name rest) :
    ∃ dir, ∃ e : DirEntry, e ∈ dirents env dir ∧ e.isDir = false ∧ name = env.join dir e.name := by
  obtain ⟨e, he, hd, hn⟩ := h
  exact ⟨dir, e, he.subset (List.mem_cons_self _ _), hd, hn⟩

theorem getD_readDir (env : Env) (dir : String) : (env.readDir dir).getD [] = dirents env dir := by
  unfold dirents
  cases env.readDir dir <;> rfl

theorem local_stepWalker {env : Env} {s s' : State} (h : Local env s) {i : Nat} {w : Walker}
    (hw : s.walkers[i]? = some w) (hs : stepWalker env s i w = some s') : Local env s' := by
  obtain ⟨h1, h2⟩ := h
  have hok := h1 w (mem_of_getElem? hw)
  obtain ⟨q, dir, pc⟩ := w
  obtain ⟨hq, hpc⟩ := hok
  dsimp only at hq hpc
  unfold stepWalker at hs
  rcases pc with _ | _ | _ | (_ | _) | _ | _ | _ | _ | _ | _ | _ <;> simp only at hs hpc <;>
    (try split at hs) <;> (try split at hs) <;>
    simp only [Option.some.injEq, reduceCtorEq] at hs <;> subst hs <;>
    refine ⟨?_, ?_⟩ <;> dsimp only <;> (try assumption) <;>
    (try (first
      | refine forall_set_append h1 ⟨hq, ?_⟩ ⟨hq, ?_⟩
      | refine forall_set h1 ⟨hq, ?_⟩)) <;>
    (try dsimp only) <;> (try trivial)
  · subst hpc; rw [getD_readDir]
  · subst hpc; rw [getD_readDir]
  · exact ⟨_, hpc, by assumption, rfl⟩
  · exact suffix_of_cons_suffix hpc
  · rename_i hd
    exact ⟨_, hpc, by simpa using hd, rfl⟩
  · obtain ⟨e, he, _, _⟩ := hpc
    exact suffix_of_cons_suffix he
  · rename_i hck
    exact ⟨hpc.1, by rw [checkFile, ← hpc.2]; exact hck⟩
  · exact hpc.1.rest
  · exact hpc.1.rest
  · intro p hp
    simp only [matchLines_append, matchLines, List.mem_append, List.mem_singleton] at hp
    rcases hp with hp | hp
    · exact h2 p hp
    · subst hp
      exact ⟨hpc.1.mem, hq ▸ hpc.2⟩

theorem local_step {env : Env} {s s' : State} {a : Action} (h : Local env s)
    (hs : step env s a = some s') : Local env s' := by
  unfold step at hs
  split at hs
  · simp at hs
  cases a with
  | main => exact local_stepMain h hs
  | closer => exact local_stepCloser h hs
  | walker i =>
    simp only at hs
    cases hw : s.walkers[i]? with
    | none => simp [hw] at hs
    | some w =>
      simp only [hw] at hs
      exact local_stepWalker h hw hs

theorem local_of_reachable {env : Env} {s : State} (h : Reachable env s) : Local env s :=
  reachable_induction (local_init env) (fun _ _ _ hi hs => local_step hi hs) h

/-! ## Depth: `covered` and `walkFiles` -/

theorem walkFiles_succ (env : Env) (fuel : Nat) (dir : String) :
    walkFiles env (fuel + 1) dir = (dirents env dir).flatMap (entryFiles env fuel dir) := by
  rw [walkFiles]
  rfl

theorem covered_succ (env : Env) (fuel : Nat) (dir : String) :
    covered env (fuel + 1) dir = (dirents env dir).all (entryCovered env fuel dir) := by
  rw [covered]
  rfl

theorem flatMap_congr_mem {α β : Type} {l : List α} {f g : α → List β}
    (h : ∀ a ∈ l, f a = g a) : l.flatMap f = l.flatMap g := by
  induction l with
  | nil => rfl
  | cons x xs ih =>
    rw [List.flatMap_cons, List.flatMap_cons, h x (List.mem_cons_self _ _),
      ih fun a ha => h a (List.mem_cons_of_mem _ ha)]

theorem covered_mono (env : Env) (fuel : Nat) (dir : String)
    (h : covered env fuel dir = true) : covered env (fuel + 1) dir = true := by
  induction fuel generalizing dir with
  | zero => simp [covered] at h
  | succ n ih =>
    rw [covered_succ, List.all_eq_true] at h ⊢
    intro e he
    have := h e he
    simp only [entryCovered, Bool.or_eq_true, Bool.not_eq_eq_eq_not, Bool.not_true] at this ⊢
    rcases this with this | this
    · exact Or.inl this
    · exact Or.inr (ih _ this)

theorem entryCovered_mono {env : Env} {fuel : Nat} {dir : String} {e : DirEntry}
    (h : entryCovered env fuel dir e = true) : entryCovered env (fuel + 1) dir e = true := by
  simp only [entryCovered, Bool.or_eq_true, Bool.not_eq_eq_eq_not, Bool.not_true] at h ⊢
  rcases h with h | h
  · exact Or.inl h
  · exact Or.inr (covered_mono env fuel _ h)

theorem walkFiles_stable (env : Env) (fuel : Nat) (dir : String)
    (h : covered env fuel dir = true) : walkFiles env (fuel + 1) dir = walkFiles env fuel dir := by
  induction fuel generalizing dir with
  | zero => simp [covered] at h
  | succ n ih =>
    rw [walkFiles_succ, walkFiles_succ]
    rw [covered_succ, List.all_eq_true] at h
    apply flatMap_congr_mem
    intro e he
    have := h e he
    simp only [entryCovered, Bool.or_eq_true, Bool.not_eq_eq_eq_not, Bool.not_true] at this
    unfold entryFiles
    split
    · split
      · rename_i hd hr
        rcases this with (this | this) | this
        · simp [hd] at this
        · simp [hr] at this
        · exact ih _ this
      · rfl
    · rfl

/-- Within the depth, the files of a directory are the files of its entries. -/
theorem walkFiles_eq_entries {env : Env} {fuel : Nat} {dir : String}
    (h : covered env fuel dir = true) :
    walkFiles env fuel dir = (dirents env dir).flatMap (entryFiles env fuel dir) := by
  rw [← walkFiles_succ, walkFiles_stable env fuel dir h]

/-- Within the depth, so are the entries of the directory. -/
theorem entries_covered {env : Env} {fuel : Nat} {dir : String}
    (h : covered env fuel dir = true) :
    ∀ e ∈ dirents env dir, entryCovered env fuel dir e = true := by
  cases fuel with
  | zero => simp [covered] at h
  | succ n =>
    rw [covered_succ, List.all_eq_true] at h
    exact fun e he => entryCovered_mono (h e he)

/-! ## The accounting invariant -/

theorem rootsOf_of_length_zero {args : List String} (h : args.length = 0) : rootsOf args = [] := by
  rw [List.length_eq_zero] at h
  subst h
  rfl

theorem account_init {env : Env} {fuel : Nat}
    (hcov : ∀ r ∈ rootsOf env.args, covered env fuel r = true) : Account env fuel init := by
  constructor
  · simp [init]
  · simpa [init, mainRoots] using hcov
  · simp [init, mainRoots, wsum, allFiles, matchLines]
  · simp [init, mainRoots, wsum, allFiles, matchLines]

theorem account_stepMain {env : Env} {fuel : Nat} {s s' : State} (h : Account env fuel s)
    (hs : stepMain env s = some s') : Account env fuel s' := by
  obtain ⟨h1, h2, h3, h4⟩ := h
  unfold stepMain at hs
  split at hs <;> rename_i hm <;> simp only [hm, mainRoots] at h2 h3 h4 <;>
    (try split at hs) <;>
    simp only [Option.some.injEq, reduceCtorEq] at hs <;> subst hs <;>
    refine ⟨?_, ?_, ?_, ?_⟩ <;> dsimp only [mainRoots] <;> (try assumption)
  · simp
  · rename_i ha
    rw [← h3, rootsOf_of_length_zero ha]
  · rename_i ha
    rw [← h4, rootsOf_of_length_zero ha]
    simp [matchLines_append, matchLines]
  · intro w hw
    rcases List.mem_append.1 hw with hw | hw
    · exact h1 w hw
    · rw [List.mem_singleton] at hw
      subst hw
      exact ⟨h2 _ (List.mem_cons_self _ _), by simp [restOf]⟩
  · exact fun r hr => h2 r (List.mem_cons_of_mem _ hr)
  · rw [← h3]
    simp only [wsum_append, wsum_singleton, pendFiles, headFiles, restOf, List.flatMap_cons,
      List.flatMap_nil, List.append_nil, ← Multiset.coe_add]
    abel
  · rw [← h4]
    simp only [wsum_append, wsum_singleton, pendMatches, headMatches, restOf, List.flatMap_cons,
      List.flatMap_nil, List.append_nil, List.filter_append, List.filter_nil, ← Multiset.coe_add]
    abel
  · rw [← h4]
    simp [matchLines_append, matchLines]

theorem account_stepCloser {env : Env} {fuel : Nat} {s s' : State} (h : Account env fuel s)
    (hs : stepCloser s = some s') : Account env fuel s' := by
  obtain ⟨h1, h2, h3, h4⟩ := h
  unfold stepCloser at hs
  split at hs <;> (try split at hs) <;>
    simp only [Option.some.injEq, reduceCtorEq] at hs <;> subst hs <;>
    exact ⟨h1, h2, h3, h4⟩

theorem account_stepWalker {env : Env} {fuel : Nat} {s s' : State} (hl : Local env s)
    (h : Account env fuel s) {i : Nat} {w : Walker}
    (hw : s.walkers[i]? = some w) (hs : stepWalker env s i w = some s') :
    Account env fuel s' := by
  obtain ⟨h1, h2, h3o, h4o⟩ := h
  have hok := hl.walkersOk w (mem_of_getElem? hw)
  have hcv := h1 w (mem_of_getElem? hw)
  have h3 := h3o
  have h4 := h4o
  rw [wsum_get _ hw] at h3 h4
  obtain ⟨R, hR⟩ : ∃ R, R = wsum (fun w => (↑(pendFiles env fuel w) : Multiset String))
    (s.walkers.eraseIdx i) := ⟨_, rfl⟩
  obtain ⟨Q, hQ⟩ : ∃ Q, Q = wsum (fun w => (↑(pendMatches env fuel w) : Multiset String))
    (s.walkers.eraseIdx i) := ⟨_, rfl⟩
  rw [← hR] at h3
  rw [← hQ] at h4
  obtain ⟨q, dir, pc⟩ := w
  obtain ⟨hq, hpc⟩ := hok
  obtain ⟨hc1, hc2⟩ := hcv
  dsimp only at hq hpc hc1 hc2
  subst hq
  unfold stepWalker at hs
  rcases pc with _ | _ | _ | (_ | _) | _ | _ | _ | _ | _ | _ | _ <;>
    simp only [restOf] at hs hpc hc1 hc2 <;>
    (try split at hs) <;> (try split at hs) <;>
    simp only [Option.some.injEq, reduceCtorEq] at hs <;> subst hs <;>
    refine ⟨?_, ?_, ?_, ?_⟩ <;> dsimp only <;> (try assumption) <;>
    (try simp only [wsum_set _ hw, wsum_append, wsum_singleton, ← hR, ← hQ]) <;>
    (try (first
      | (rw [← h3]
         clear h3 h4 h3o h4o hR hQ
         simp only [pendFiles, headFiles, restOf,
           List.flatMap_cons, List.flatMap_nil, List.append_nil, List.nil_append,
           entryFiles, ← Multiset.coe_add, Multiset.coe_nil, if_true, if_false,
           Bool.false_eq_true, *]
         try abel
         done)
      | (rw [← h4]
         clear h3 h4 h3o h4o hR hQ
         simp only [pendMatches, headMatches, restOf,
           List.flatMap_cons, List.flatMap_nil, List.append_nil, List.nil_append,
           List.filter_append, List.filter_nil, matchLines_append, matchLines,
           entryFiles, ← Multiset.coe_add, Multiset.coe_nil, if_true, if_false,
           Bool.false_eq_true, *]
         try abel
         done)
      | (refine forall_set_append h1 ⟨?_, ?_⟩ ⟨?_, ?_⟩ <;> simp only [restOf] <;>
          first
            | trivial
            | exact hc2
            | exact hc1
            | exact fun e he => hc2 e (List.mem_cons_of_mem _ he)
            | simp)
      | (refine forall_set h1 ⟨?_, ?_⟩ <;> simp only [restOf] <;>
          first
            | trivial
            | exact hc2
            | exact hc1
            | exact fun e he => hc2 e (List.mem_cons_of_mem _ he))))
  · refine forall_set h1 ⟨trivial, ?_⟩
    simp only [restOf]
    rw [getD_readDir]
    exact entries_covered hc1
  · rw [← h3]
    simp only [pendFiles, headFiles, restOf, getD_readDir, List.nil_append, List.flatMap_nil,
      List.append_nil]
    rw [walkFiles_eq_entries hc1]
  · rw [← h4]
    simp only [pendMatches, headMatches, restOf, getD_readDir, List.nil_append, List.flatMap_nil,
      List.append_nil, List.filter_nil]
    rw [walkFiles_eq_entries hc1]
  · rename_i hd hr
    refine forall_set h1 ⟨?_, ?_⟩
    · have := hc2 _ (List.mem_cons_self _ _)
      simpa [entryCovered, hd, hr] using this
    · exact fun e he => hc2 e (List.mem_cons_of_mem _ he)
  · rw [← h4]
    simp only [pendMatches, headMatches, restOf, List.filter_cons, List.filter_nil, checkFile]
  · rename_i hck
    rw [← h4]
    simp only [pendMatches, headMatches, restOf, hck, if_true]
  · rename_i hck
    rw [← h4]
    simp only [pendMatches, headMatches, restOf, hck, if_false, Bool.false_eq_true]

theorem account_step {env : Env} {fuel : Nat} {s s' : State} {a : Action} (hl : Local env s)
    (h : Account env fuel s) (hs : step env s a = some s') : Account env fuel s' := by
  unfold step at hs
  split at hs
  · simp at hs
  cases a with
  | main => exact account_stepMain h hs
  | closer => exact account_stepCloser h hs
  | walker i =>
    simp only at hs
    cases hw : s.walkers[i]? with
    | none => simp [hw] at hs
    | some w =>
      simp only [hw] at hs
      exact account_stepWalker hl h hw hs

theorem account_of_reachable {env : Env} {fuel : Nat} {s : State}
    (hcov : ∀ r ∈ rootsOf env.args, covered env fuel r = true) (h : Reachable env s) :
    Account env fuel s := by
  have : Local env s ∧ Account env fuel s :=
    reachable_induction (P := fun s => Local env s ∧ Account env fuel s)
      ⟨local_init env, account_init hcov⟩
      (fun _ _ _ hi hs => ⟨local_step hi.1 hs, account_step hi.1 hi.2 hs⟩) h
  exact this.2

/-! ## Termination -/

theorem walkCost_succ (env : Env) (fuel : Nat) (dir : String) :
    walkCost env (fuel + 1) dir = 2 + ((dirents env dir).map (entryCost env fuel dir)).sum := by
  rw [walkCost]
  rfl

theorem map_congr_mem {α β : Type} {l : List α} {f g : α → β}
    (h : ∀ a ∈ l, f a = g a) : l.map f = l.map g := by
  induction l with
  | nil => rfl
  | cons x xs ih =>
    rw [List.map_cons, List.map_cons, h x (List.mem_cons_self _ _),
      ih fun a ha => h a (List.mem_cons_of_mem _ ha)]

theorem walkCost_stable (env : Env) (fuel : Nat) (dir : String)
    (h : covered env fuel dir = true) : walkCost env (fuel + 1) dir = walkCost env fuel dir := by
  induction fuel generalizing dir with
  | zero => simp [covered] at h
  | succ n ih =>
    rw [walkCost_succ, walkCost_succ]
    rw [covered_succ, List.all_eq_true] at h
    congr 2
    apply map_congr_mem
    intro e he
    have := h e he
    simp only [entryCovered, Bool.or_eq_true, Bool.not_eq_eq_eq_not, Bool.not_true] at this
    unfold entryCost
    split
    · split
      · rename_i hd hr
        rcases this with (this | this) | this
        · simp [hd] at this
        · simp [hr] at this
        · rw [ih _ this]
      · rfl
    · rfl

theorem walkCost_eq_entries {env : Env} {fuel : Nat} {dir : String}
    (h : covered env fuel dir = true) :
    walkCost env fuel dir = 2 + ((dirents env dir).map (entryCost env fuel dir)).sum := by
  rw [← walkCost_succ, walkCost_stable env fuel dir h]

theorem stepsLeft_stepMain {env : Env} {fuel : Nat} {s s' : State}
    (hs : stepMain env s = some s') : stepsLeft env fuel s' < stepsLeft env fuel s := by
  unfold stepMain at hs
  unfold stepsLeft
  split at hs <;> rename_i hm <;> (try split at hs) <;>
    simp only [Option.some.injEq, reduceCtorEq] at hs <;> subst hs <;>
    simp only [hm, mainCost, closerCost, wsum_append, wsum_singleton, walkerCost, headCost, restOf,
      List.map_cons, List.sum_cons, List.map_nil, List.sum_nil] <;>
    omega

theorem stepsLeft_stepCloser {env : Env} {fuel : Nat} {s s' : State}
    (hs : stepCloser s = some s') (hnp : s'.panicked = false) :
    stepsLeft env fuel s' < stepsLeft env fuel s := by
  unfold stepCloser at hs
  unfold stepsLeft
  split at hs <;> rename_i hc <;> (try split at hs) <;>
    simp only [Option.some.injEq, reduceCtorEq] at hs <;> subst hs <;>
    (try (simp at hnp; done)) <;>
    simp only [hc, closerCost] <;>
    omega

theorem stepsLeft_stepWalker {env : Env} {fuel : Nat} {s s' : State} (hl : Local env s)
    (h : Account env fuel s) {i : Nat} {w : Walker}
    (hw : s.walkers[i]? = some w) (hs : stepWalker env s i w = some s')
    (hnp : s'.panicked = false) :
    stepsLeft env fuel s' < stepsLeft env fuel s := by
  have hok := hl.walkersOk w (mem_of_getElem? hw)
  have hcv := h.cov w (mem_of_getElem? hw)
  unfold stepsLeft
  rw [wsum_get (walkerCost env fuel) hw]
  obtain ⟨q, dir, pc⟩ := w
  obtain ⟨hq, hpc⟩ := hok
  obtain ⟨hc1, hc2⟩ := hcv
  dsimp only at hq hpc hc1 hc2
  unfold stepWalker at hs
  rcases pc with _ | _ | _ | (_ | _) | _ | _ | _ | _ | _ | _ | _ <;>
    simp only [restOf] at hs hpc hc1 hc2 <;>
    (try split at hs) <;> (try split at hs) <;>
    simp only [Option.some.injEq, reduceCtorEq] at hs <;> subst hs <;>
    (try (simp at hnp; done)) <;>
    (try simp only [wsum_set _ hw, wsum_append, wsum_singleton]) <;>
    simp only [walkerCost, headCost, restOf, List.map_cons, List.sum_cons, List.map_nil,
      List.sum_nil, entryCost, if_true, if_false, Bool.false_eq_true, *] <;>
    (try omega)
  have := walkCost_eq_entries hc1
  rw [getD_readDir]
  omega

theorem stepsLeft_step {env : Env} {fuel : Nat} {s s' : State} {a : Action}
    (hsafe : Safe env s) (hl : Local env s) (h : Account env fuel s)
    (hs : step env s a = some s') : stepsLeft env fuel s' < stepsLeft env fuel s := by
  have hnp := (safe_step hsafe hs).noPanic
  unfold step at hs
  split at hs
  · simp at hs
  cases a with
  | main => exact stepsLeft_stepMain hs
  | closer => exact stepsLeft_stepCloser hs hnp
  | walker i =>
    simp only at hs
    cases hw : s.walkers[i]? with
    | none => simp [hw] at hs
    | some w =>
      simp only [hw] at hs
      exact stepsLeft_stepWalker hl h hw hs hnp

/-! ## Progress: no deadlock -/

theorem exists_pos_of_wsum_pos {f : Walker → Nat} {ws : List Walker} (h : 0 < wsum f ws) :
    ∃ (i : Nat) (w : Walker), ws[i]? = some w ∧ 0 < f w := by
  induction ws with
  | nil => simp [wsum] at h
  | cons x xs ih =>
    by_cases hx : 0 < f x
    · exact ⟨0, x, by simp, hx⟩
    · have : 0 < wsum f xs := by
        simp only [wsum, List.map_cons, List.sum_cons] at h ⊢
        omega
      obtain ⟨i, w, hw, hf⟩ := ih this
      exact ⟨i + 1, w, by simpa using hw, hf⟩

theorem step_walker_eq {env : Env} {s : State} {i : Nat} {w : Walker}
    (hnp : s.panicked = false) (hw : s.walkers[i]? = some w) :
    step env s (.walker i) = stepWalker env s i w := by
  simp [step, hnp, hw]

/-- A walker inside the protected section of `dirents` can move. -/
theorem dirHolder_enabled {env : Env} {s : State} {i : Nat} {w : Walker}
    (hpos : 0 < s.dirsSema) (hh : 0 < holdsDir w) : (stepWalker env s i w).isSome = true := by
  obtain ⟨q, dir, pc⟩ := w
  cases pc <;> simp [holdsDir] at hh <;> simp [stepWalker, hpos]

/-- A walker inside the protected section of `checkFile` can move. -/
theorem fileHolder_enabled {env : Env} {s : State} {i : Nat} {w : Walker}
    (hpos : 0 < s.filesSema) (hh : 0 < holdsFile w) : (stepWalker env s i w).isSome = true := by
  obtain ⟨q, dir, pc⟩ := w
  cases pc <;> simp [holdsFile] at hh <;> simp [stepWalker, hpos]

/-- While `main` is in its `select`, a walker that has not finished can move
or, when it waits for a semaphore, a holder of that semaphore can. -/
theorem walker_progress {env : Env} {s : State} (h : Safe env s) (hm : s.mainPc = .select)
    {i : Nat} {w : Walker} (hw : s.walkers[i]? = some w) (hpc : w.pc ≠ .finished) :
    ∃ a s', step env s a = some s' := by
  obtain ⟨q, dir, pc⟩ := w
  have key : ∀ j w', s.walkers[j]? = some w' → (stepWalker env s j w').isSome = true →
      ∃ a s', step env s a = some s' := by
    intro j w' hw' hsome
    obtain ⟨s', hs'⟩ := Option.isSome_iff_exists.1 hsome
    exact ⟨.walker j, s', by rw [step_walker_eq h.noPanic hw', hs']⟩
  rcases pc with _ | _ | _ | (_ | _) | _ | _ | _ | _ | _ | _ | _
  · by_cases hd : s.dirsSema < dirsSemaCap
    · exact key i _ hw (by simp [stepWalker, hd])
    · have hpos : 0 < s.dirsSema := by simp only [dirsSemaCap] at hd; omega
      obtain ⟨j, w', hw', hh⟩ := exists_pos_of_wsum_pos (h.dirsEq ▸ hpos)
      exact key j w' hw' (dirHolder_enabled hpos hh)
  · exact key i _ hw (by simp [stepWalker])
  · have hpos : 0 < s.dirsSema := by
      have := h.dirsEq
      rw [wsum_get holdsDir hw] at this
      simp only [holdsDir] at this
      omega
    exact key i _ hw (by simp [stepWalker, hpos])
  · apply key i _ hw
    simp only [stepWalker]
    split <;> rfl
  · apply key i _ hw
    simp only [stepWalker]
    split <;> (try split) <;> rfl
  · exact key i _ hw (by simp [stepWalker])
  · exact key i _ hw (by simp [stepWalker, hm])
  · by_cases hd : s.filesSema < filesSemaCap
    · exact key i _ hw (by simp [stepWalker, hd])
    · have hpos : 0 < s.filesSema := by simp only [filesSemaCap] at hd; omega
      obtain ⟨j, w', hw', hh⟩ := exists_pos_of_wsum_pos (h.filesEq ▸ hpos)
      exact key j w' hw' (fileHolder_enabled hpos hh)
  · exact key i _ hw (by simp [stepWalker])
  · have hpos : 0 < s.filesSema := by
      have := h.filesEq
      rw [wsum_get holdsFile hw] at this
      simp only [holdsFile] at this
      omega
    exact key i _ hw (by simp [stepWalker, hpos])
  · apply key i _ hw
    simp only [stepWalker, hm]
    split <;> simp
  · exact absurd rfl hpc

/-- Until `main` has returned, some goroutine can move. -/
theorem progress {env : Env} {s : State} (h : Safe env s) (hm : s.mainPc ≠ .returned) :
    ∃ a s', step env s a = some s' := by
  have hmain : (stepMain env s).isSome = true → ∃ a s', step env s a = some s' := by
    intro hsome
    obtain ⟨s', hs'⟩ := Option.isSome_iff_exists.1 hsome
    exact ⟨.main, s', by simp [step, h.noPanic, hs']⟩
  have hcloser : (stepCloser s).isSome = true → ∃ a s', step env s a = some s' := by
    intro hsome
    obtain ⟨s', hs'⟩ := Option.isSome_iff_exists.1 hsome
    exact ⟨.closer, s', by simp [step, h.noPanic, hs']⟩
  have hph := h.phase
  unfold PhaseOk at hph
  cases hp : s.mainPc with
  | entry =>
    apply hmain
    simp only [stepMain, hp]
    split <;> rfl
  | launch rest =>
    apply hmain
    cases rest <;> simp [stepMain, hp]
  | registered root rest => exact hmain (by simp [stepMain, hp])
  | startCloser => exact hmain (by simp [stepMain, hp])
  | returned => exact absurd hp hm
  | select =>
    simp only [hp] at hph
    rcases hph with ⟨hc, hcl⟩ | ⟨hc, hcl, _⟩ | ⟨_, hcl, _⟩
    · by_cases hwg : s.wg = 0
      · exact hcloser (by simp [stepCloser, hc, hwg])
      · have h2 := h.wgEq
        simp only [hp, mainReg] at h2
        by_cases hact : 0 < wsum active s.walkers
        · obtain ⟨i, w, hw, hf⟩ := exists_pos_of_wsum_pos hact
          refine walker_progress h hp hw ?_
          intro hfin
          simp [active, hfin] at hf
        · have hreg : 0 < wsum pendingReg s.walkers := by omega
          obtain ⟨i, w, hw, hf⟩ := exists_pos_of_wsum_pos hreg
          refine walker_progress h hp hw ?_
          intro hfin
          simp [pendingReg, hfin] at hf
    · exact hcloser (by simp [stepCloser, hc, hcl])
    · exact hmain (by simp [stepMain, hp, hcl])

/-! ## Complete runs -/

/-- The three invariants together. -/
theorem invariants_of_reachable {env : Env} {fuel : Nat} {s : State}
    (hcov : ∀ r ∈ rootsOf env.args, covered env fuel r = true) (h : Reachable env s) :
    Safe env s ∧ Local env s ∧ Account env fuel s :=
  ⟨safe_of_reachable h, local_of_reachable h, account_of_reachable hcov h⟩

/-- A run is never longer than the measure: every schedule terminates. -/
theorem run_length_le {env : Env} {fuel : Nat}
    (hcov : ∀ r ∈ rootsOf env.args, covered env fuel r = true)
    {s s' : State} {sched : List Action} (hr : Reachable env s)
    (hrun : run env s sched = some s') :
    sched.length + stepsLeft env fuel s' ≤ stepsLeft env fuel s := by
  induction sched generalizing s with
  | nil =>
    simp only [run, Option.some.injEq] at hrun
    subst hrun
    simp
  | cons a l ih =>
    simp only [run] at hrun
    cases hs : step env s a with
    | none => simp [hs] at hrun
    | some s₁ =>
      simp only [hs] at hrun
      obtain ⟨h1, h2, h3⟩ := invariants_of_reachable hcov hr
      have hlt := stepsLeft_step h1 h2 h3 hs
      have := ih (hr.step hs) hrun
      simp only [List.length_cons]
      omega

/-- From every reachable state the run can be completed: `main` returns. -/
theorem can_complete {env : Env} {fuel : Nat}
    (hcov : ∀ r ∈ rootsOf env.args, covered env fuel r = true)
    {s : State} (hr : Reachable env s) :
    ∃ sched s', run env s sched = some s' ∧ s'.mainPc = .returned := by
  generalize hn : stepsLeft env fuel s = n
  induction n using Nat.strong_induction_on generalizing s with
  | _ n ih =>
    by_cases hm : s.mainPc = .returned
    · exact ⟨[], s, rfl, hm⟩
    · obtain ⟨h1, h2, h3⟩ := invariants_of_reachable hcov hr
      obtain ⟨a, s₁, hs⟩ := progress h1 hm
      have hlt := stepsLeft_step h1 h2 h3 hs
      obtain ⟨sched, s', hrun, hret⟩ := ih _ (hn ▸ hlt) (hr.step hs) rfl
      exact ⟨a :: sched, s', by simp [run, hs, hrun], hret⟩

theorem wsum_eq_zero {M : Type} [AddCommMonoid M] {f : Walker → M} {ws : List Walker}
    (h : ∀ w ∈ ws, f w = 0) : wsum f ws = 0 := by
  induction ws with
  | nil => rfl
  | cons x xs ih =>
    simp only [wsum, List.map_cons, List.sum_cons] at ih ⊢
    rw [h x (List.mem_cons_self _ _), ih fun w hw => h w (List.mem_cons_of_mem _ hw), add_zero]

theorem forall_of_wsum_zero {f : Walker → Nat} {ws : List Walker} (h : wsum f ws = 0) :
    ∀ w ∈ ws, f w = 0 := by
  induction ws with
  | nil => simp
  | cons x xs ih =>
    simp only [wsum, List.map_cons, List.sum_cons] at h ih
    intro w hw
    rcases List.mem_cons.1 hw with hw | hw
    · subst hw; omega
    · exact ih (by omega) w hw

/-- When the counter is zero and `main` is past the launch of the roots,
every walker has finished. -/
theorem all_finished_of_wg_zero {env : Env} {s : State} (h : Safe env s) (hwg : s.wg = 0) :
    ∀ w ∈ s.walkers, w.pc = .finished := by
  have h2 := h.wgEq
  have h0 : wsum active s.walkers = 0 := by omega
  intro w hw
  have := forall_of_wsum_zero h0 w hw
  unfold active at this
  split at this
  · assumption
  · omega

theorem wg_zero_of_returned {env : Env} {s : State} (h : Safe env s)
    (hm : s.mainPc = .returned) : s.wg = 0 := by
  have hph := h.phase
  simp only [PhaseOk, hm] at hph
  rcases hph with hph | hph
  · exact hph.2.2
  · exact hph.2.2.2.1

/-- What a complete run has done: the tokens received are those of
`allFiles`, the matches printed are the files of `allFiles` that `checkFile`
accepts, and the counters count them. -/
theorem returned_results {env : Env} {fuel : Nat}
    (hcov : ∀ r ∈ rootsOf env.args, covered env fuel r = true)
    {s : State} (hr : Reachable env s) (hm : s.mainPc = .returned) :
    s.visited.Perm (allFiles env fuel) ∧
    (matchLines s.stdout).Perm ((allFiles env fuel).filter (checkFile env (queryOf env.args))) ∧
    s.nfiles = (allFiles env fuel).length ∧
    s.nmatches = ((allFiles env fuel).filter (checkFile env (queryOf env.args))).length := by
  obtain ⟨h1, _, h3⟩ := invariants_of_reachable hcov hr
  have hfin := all_finished_of_wg_zero h1 (wg_zero_of_returned h1 hm)
  have hf := h3.files
  have hg := h3.found
  rw [wsum_eq_zero (fun w hw => by simp [pendFiles, headFiles, restOf, hfin w hw])] at hf
  rw [wsum_eq_zero (fun w hw => by simp [pendMatches, headMatches, restOf, hfin w hw])] at hg
  simp only [hm, mainRoots, List.flatMap_nil, List.filter_nil, Multiset.coe_nil, add_zero,
    Multiset.coe_eq_coe] at hf hg
  exact ⟨hf, hg, by rw [h1.nfilesEq, hf.length_eq], by rw [h1.nmatchesEq, hg.length_eq]⟩

/-! ## The output invariant -/

theorem output_init (env : Env) : Output env init := by
  constructor <;> simp [init, matchLines, wsum]

theorem output_stepMain {env : Env} {s s' : State} (h : Output env s)
    (hs : stepMain env s = some s') : Output env s' := by
  obtain ⟨h1, h2⟩ := h
  unfold stepMain at hs
  split at hs <;> rename_i hm <;> (try split at hs) <;>
    simp only [Option.some.injEq, reduceCtorEq] at hs <;> subst hs <;>
    refine ⟨?_, ?_⟩ <;> dsimp only <;> (try assumption) <;>
    (try simp only [reduceCtorEq, false_implies]) <;>
    (try (rw [← h1]
          simp only [matchLines_append, matchLines, List.append_nil, wsum_append, wsum_singleton,
            postMatches, Multiset.coe_nil, add_zero]))
  · rename_i ha
    intro _ hne
    exact absurd (List.length_eq_zero.1 ha) hne
  · intro _ _
    simp

theorem output_stepCloser {env : Env} {s s' : State} (h : Output env s)
    (hs : stepCloser s = some s') : Output env s' := by
  obtain ⟨h1, h2⟩ := h
  unfold stepCloser at hs
  split at hs <;> (try split at hs) <;>
    simp only [Option.some.injEq, reduceCtorEq] at hs <;> subst hs <;>
    exact ⟨h1, h2⟩

theorem output_stepWalker {env : Env} {s s' : State} (hl : Local env s)
    (h : Output env s) {i : Nat} {w : Walker}
    (hw : s.walkers[i]? = some w) (hs : stepWalker env s i w = some s') :
    Output env s' := by
  obtain ⟨h1o, h2⟩ := h
  have hok := hl.walkersOk w (mem_of_getElem? hw)
  have h1 := h1o
  rw [wsum_get _ hw] at h1
  obtain ⟨Q, hQ⟩ : ∃ Q, Q = wsum (fun w => (↑(postMatches env w) : Multiset String))
    (s.walkers.eraseIdx i) := ⟨_, rfl⟩
  rw [← hQ] at h1
  obtain ⟨q, dir, pc⟩ := w
  obtain ⟨hq, hpc⟩ := hok
  dsimp only at hq hpc
  subst hq
  unfold stepWalker at hs
  rcases pc with _ | _ | _ | (_ | _) | _ | _ | _ | _ | _ | _ | _ <;>
    simp only at hs hpc <;>
    (try split at hs) <;> (try split at hs) <;>
    simp only [Option.some.injEq, reduceCtorEq] at hs <;> subst hs <;>
    refine ⟨?_, ?_⟩ <;> dsimp only <;> (try assumption) <;>
    (try simp only [wsum_set _ hw, wsum_append, wsum_singleton, ← hQ]) <;>
    (try (first
      | ((try simp only [List.filter_append, ← Multiset.coe_add])
         rw [← h1]
         (try simp only [postMatches, matchLines_append, matchLines, List.append_nil,
           ← Multiset.coe_add, Multiset.coe_nil])
         try abel
         done)
      | (intro hm
         rename_i hsel
         rw [hsel] at hm
         exact absurd hm (by simp))))
  · rw [← h1]
    simp only [postMatches, List.filter_cons, List.filter_nil, checkFile]
  · rename_i hck
    rw [← h1]
    simp only [postMatches, hck, if_true]
  · rename_i hck
    rw [← h1]
    simp only [postMatches, hck, if_false, Bool.false_eq_true]

theorem output_step {env : Env} {s s' : State} {a : Action} (hl : Local env s)
    (h : Output env s) (hs : step env s a = some s') : Output env s' := by
  unfold step at hs
  split at hs
  · simp at hs
  cases a with
  | main => exact output_stepMain h hs
  | closer => exact output_stepCloser h hs
  | walker i =>
    simp only at hs
    cases hw : s.walkers[i]? with
    | none => simp [hw] at hs
    | some w =>
      simp only [hw] at hs
      exact output_stepWalker hl h hw hs

theorem output_of_reachable {env : Env} {s : State} (h : Reachable env s) : Output env s := by
  have : Local env s ∧ Output env s :=
    reachable_induction (P := fun s => Local env s ∧ Output env s)
      ⟨local_init env, output_init env⟩
      (fun _ _ _ hi hs => ⟨local_step hi.1 hs, output_step hi.1 hi.2 hs⟩) h
  exact this.2

/-- When every walker has finished, the printed matches are the visited files
that `checkFile` accepts. -/
theorem matches_of_finished {env : Env} {s : State} (hr : Reachable env s)
    (hwg : s.wg = 0) :
    (matchLines s.stdout).Perm (s.visited.filter (checkFile env (queryOf env.args))) := by
  have hfin := all_finished_of_wg_zero (safe_of_reachable hr) hwg
  have h := (output_of_reachable hr).sub
  rw [wsum_eq_zero (fun w hw => by simp [postMatches, hfin w hw])] at h
  simpa only [add_zero, Multiset.coe_eq_coe] using h

/-! ## Concrete runs -/

theorem t2_run : run t2Env init t2Sched = some t2Final := by decide

theorem t2Rec_run : run t2RecEnv init t2RecSched = some t2RecFinal := by decide

theorem t4_run : run t4Env init t4Sched = some t4Final := by decide

theorem t4Empty_run : run t4EmptyEnv init t4Sched = some t4EmptyFinal := by decide

theorem twoRoots_run : run twoRootsEnv init twoRootsSched = some twoRootsFinal := by decide

theorem noArgs_run : run noArgsEnv init [.main] = some noArgsFinal := by decide

/-! ## The counter and the close along a run -/

theorem stepWalker_frame {env : Env} {s s' : State} {i : Nat} {w : Walker}
    (hs : stepWalker env s i w = some s') :
    s'.mainPc = s.mainPc ∧ s'.closer = s.closer ∧ s'.closed = s.closed := by
  obtain ⟨q, dir, pc⟩ := w
  unfold stepWalker at hs
  rcases pc with _ | _ | _ | (_ | _) | _ | _ | _ | _ | _ | _ | _ <;> simp only at hs <;>
    (try split at hs) <;> (try split at hs) <;>
    simp only [Option.some.injEq, reduceCtorEq] at hs <;> subst hs <;>
    exact ⟨rfl, rfl, rfl⟩

theorem stepWalker_not_finished {env : Env} {s s' : State} {i : Nat} {w : Walker}
    (hs : stepWalker env s i w = some s') : w.pc ≠ .finished := by
  intro h
  obtain ⟨q, dir, pc⟩ := w
  dsimp only at h
  subst h
  simp [stepWalker] at hs

theorem launchDone_step {env : Env} {s s' : State} {a : Action}
    (hs : step env s a = some s') (hd : launchDone s.mainPc = true) :
    launchDone s'.mainPc = true := by
  unfold step at hs
  split at hs
  · simp at hs
  cases a with
  | main =>
    simp only [stepMain] at hs
    split at hs <;> rename_i hm <;> (try split at hs) <;>
      simp only [Option.some.injEq, reduceCtorEq] at hs <;> subst hs <;>
      simp only [hm, launchDone, Bool.false_eq_true] at hd ⊢
    rename_i root rest
    cases rest
    · rfl
    · simp [launchDone] at hd
  | closer =>
    simp only [stepCloser] at hs
    split at hs <;> (try split at hs) <;>
      simp only [Option.some.injEq, reduceCtorEq] at hs <;> subst hs <;> exact hd
  | walker i =>
    simp only at hs
    cases hw : s.walkers[i]? with
    | none => simp [hw] at hs
    | some w =>
      simp only [hw] at hs
      rw [(stepWalker_frame hs).1]
      exact hd

/-- Once all roots are registered, a counter that is zero stays zero. -/
theorem wg_zero_step {env : Env} {s s' : State} {a : Action} (h : Safe env s)
    (hd : launchDone s.mainPc = true) (hwg : s.wg = 0)
    (hs : step env s a = some s') : s'.wg = 0 := by
  unfold step at hs
  split at hs
  · simp at hs
  cases a with
  | main =>
    simp only [stepMain] at hs
    split at hs <;> rename_i hm <;> (try split at hs) <;>
      simp only [Option.some.injEq, reduceCtorEq] at hs <;> subst hs <;>
      simp only [hm, launchDone, Bool.false_eq_true] at hd <;> exact hwg
  | closer =>
    simp only [stepCloser] at hs
    split at hs <;> (try split at hs) <;>
      simp only [Option.some.injEq, reduceCtorEq] at hs <;> subst hs <;> exact hwg
  | walker i =>
    simp only at hs
    cases hw : s.walkers[i]? with
    | none => simp [hw] at hs
    | some w =>
      simp only [hw] at hs
      have := wg_pos_of_walker h hw (stepWalker_not_finished hs)
      omega

theorem zeroHits_of_zero {env : Env} {s s' : State} {sched : List Action}
    (hr : Reachable env s) (hd : launchDone s.mainPc = true) (hwg : s.wg = 0)
    (hrun : run env s sched = some s') : zeroHits env s sched = 0 ∧ s'.wg = 0 := by
  induction sched generalizing s with
  | nil =>
    simp only [run, Option.some.injEq] at hrun
    subst hrun
    exact ⟨rfl, hwg⟩
  | cons a l ih =>
    simp only [run, zeroHits] at hrun ⊢
    cases hs : step env s a with
    | none => simp [hs] at hrun
    | some s₁ =>
      simp only [hs] at hrun ⊢
      have := ih (hr.step hs) (launchDone_step hs hd)
        (wg_zero_step (safe_of_reachable hr) hd hwg hs) hrun
      simp [hwg, this]

theorem zeroHits_le_one {env : Env} {s s' : State} {sched : List Action}
    (hr : Reachable env s) (hd : launchDone s.mainPc = true)
    (hrun : run env s sched = some s') : zeroHits env s sched ≤ 1 := by
  induction sched generalizing s with
  | nil => simp [zeroHits]
  | cons a l ih =>
    simp only [run, zeroHits] at hrun ⊢
    cases hs : step env s a with
    | none => simp [hs] at hrun
    | some s₁ =>
      simp only [hs] at hrun ⊢
      by_cases hz : s₁.wg = 0
      · have := (zeroHits_of_zero (hr.step hs) (launchDone_step hs hd) hz hrun).1
        split <;> omega
      · have := ih (hr.step hs) (launchDone_step hs hd) hrun
        simp [hz, this]

theorem zeroHits_pos {env : Env} {s s' : State} {sched : List Action}
    (hr : Reachable env s) (hwg : s.wg ≠ 0)
    (hrun : run env s sched = some s') (hz : s'.wg = 0) : 1 ≤ zeroHits env s sched := by
  induction sched generalizing s with
  | nil =>
    simp only [run, Option.some.injEq] at hrun
    subst hrun
    exact absurd hz hwg
  | cons a l ih =>
    simp only [run, zeroHits] at hrun ⊢
    cases hs : step env s a with
    | none => simp [hs] at hrun
    | some s₁ =>
      simp only [hs] at hrun ⊢
      by_cases hz₁ : s₁.wg = 0
      · simp [hwg, hz₁]
      · have := ih (hr.step hs) hz₁ hrun
        omega

theorem closed_mono {env : Env} {s s' : State} {a : Action}
    (hs : step env s a = some s') (hc : s.closed = true) : s'.closed = true := by
  unfold step at hs
  split at hs
  · simp at hs
  cases a with
  | main =>
    simp only [stepMain] at hs
    split at hs <;> (try split at hs) <;>
      simp only [Option.some.injEq, reduceCtorEq] at hs <;> subst hs <;> exact hc
  | closer =>
    simp only [stepCloser] at hs
    split at hs <;> (try split at hs) <;>
      simp only [Option.some.injEq, reduceCtorEq] at hs <;> subst hs <;> exact hc
  | walker i =>
    simp only at hs
    cases hw : s.walkers[i]? with
    | none => simp [hw] at hs
    | some w =>
      simp only [hw] at hs
      rw [(stepWalker_frame hs).2.2]
      exact hc

/-- The number of closes of a run is read off its first and last state. -/
theorem closeCount_eq {env : Env} {s s' : State} {sched : List Action}
    (hrun : run env s sched = some s') :
    closeCount env s sched =
      if s.closed = false ∧ s'.closed = true then 1 else 0 := by
  induction sched generalizing s with
  | nil =>
    simp only [run, Option.some.injEq] at hrun
    subst hrun
    cases s.closed <;> simp [closeCount]
  | cons a l ih =>
    simp only [run, closeCount] at hrun ⊢
    cases hs : step env s a with
    | none => simp [hs] at hrun
    | some s₁ =>
      simp only [hs] at hrun ⊢
      rw [ih hrun]
      have hm := closed_mono hs
      have hm' : s₁.closed = true → s'.closed = true := fun h =>
        run_induction (P := fun t => t.closed = true) (fun _ _ _ hc hst => closed_mono hst hc)
          h hrun
      cases h0 : s.closed <;> cases h1 : s₁.closed <;> cases h2 : s'.closed <;> simp_all

theorem closed_of_returned {env : Env} {s : State} (h : Safe env s)
    (hm : s.mainPc = .returned) (ha : env.args ≠ []) : s.closed = true := by
  have hph := h.phase
  simp only [PhaseOk, hm] at hph
  rcases hph with hph | hph
  · exact hph.2.1
  · exact absurd hph.2.2.2.2 ha

/-- Without arguments the program has two states: the initial one, and the
one in which `main` has printed `no arguments` and returned. -/
theorem reachable_of_no_args {env : Env} (ha : env.args = []) {s : State}
    (hr : Reachable env s) : s = init ∨ s = noArgsFinal := by
  refine reachable_induction (P := fun s => s = init ∨ s = noArgsFinal) (Or.inl rfl) ?_ hr
  intro s a s' hs hstep
  rcases hs with rfl | rfl
  · cases a with
    | main =>
      right
      simp [step, init, stepMain, ha] at hstep
      rw [← hstep]
      rfl
    | closer => simp [step, init, stepCloser] at hstep
    | walker i => simp [step, init] at hstep
  · cases a with
    | main => simp [step, noArgsFinal, init, stepMain] at hstep
    | closer => simp [step, noArgsFinal, init, stepCloser] at hstep
    | walker i => simp [step, noArgsFinal, init] at hstep

/-! ## Facts the claims rest on -/

theorem mem_dirents {env : Env} {dir : String} {e : DirEntry} (h : e ∈ dirents env dir) :
    ∃ entries, env.readDir dir = some entries ∧ e ∈ entries := by
  unfold dirents at h
  cases hd : env.readDir dir with
  | none => simp [hd] at h
  | some entries => exact ⟨entries, rfl, by simpa [hd] using h⟩

theorem checkFile_eq_true {env : Env} {q : Bytes} {p : String} :
    checkFile env q p = true ↔ ∃ b, env.readFile p = some b ∧ q <:+: b := by
  unfold checkFile
  cases env.readFile p with
  | none => simp [checkRead]
  | some b => simp [checkRead, bytesContains]

theorem matchOk_spec {env : Env} {p : String} (h : MatchOk env p) :
    (∃ dir entries, ∃ e : DirEntry, env.readDir dir = some entries ∧ e ∈ entries ∧
        e.isDir = false ∧ p = env.join dir e.name) ∧
      ∃ b, env.readFile p = some b ∧ queryOf env.args <:+: b := by
  obtain ⟨⟨dir, e, he, hd, hp⟩, hc⟩ := h
  obtain ⟨entries, hr, hmem⟩ := mem_dirents he
  exact ⟨⟨dir, entries, e, hr, hmem, hd, hp⟩, checkFile_eq_true.1 hc⟩

theorem walkFiles_of_readDir_none {env : Env} (fuel : Nat) {root : String}
    (h : env.readDir root = none) : walkFiles env fuel root = [] := by
  cases fuel with
  | zero => rfl
  | succ n => simp [walkFiles_succ, dirents, h]

theorem covered_one_of_not_recursive {env : Env} (hrec : env.recursive = false) (dir : String) :
    covered env 1 dir = true := by
  rw [covered_succ, List.all_eq_true]
  intro e _
  simp [entryCovered, hrec]

theorem walkFiles_one_of_not_recursive {env : Env} (hrec : env.recursive = false)
    (dir : String) : walkFiles env 1 dir = rootFiles env dir := by
  rw [walkFiles_succ]
  unfold rootFiles
  induction dirents env dir with
  | nil => rfl
  | cons e es ih =>
    rw [List.flatMap_cons, ih]
    cases hd : e.isDir <;> simp [entryFiles, hd, hrec, List.filter_cons]

theorem allFiles_of_not_recursive {env : Env} (hrec : env.recursive = false) :
    allFiles env 1 = (rootsOf env.args).flatMap (rootFiles env) := by
  unfold allFiles
  exact flatMap_congr_mem fun r _ => walkFiles_one_of_not_recursive hrec r

theorem filter_flatMap_rootFiles (env : Env) (roots : List String) :
    (roots.flatMap (rootFiles env)).filter (checkFile env (queryOf env.args)) =
      roots.flatMap (scanRoot env) := by
  rw [List.filter_flatMap]
  rfl

theorem walkFiles_readFile_irrelevant (env : Env) (rf : String → Option Bytes) (fuel : Nat)
    (dir : String) : walkFiles { env with readFile := rf } fuel dir = walkFiles env fuel dir := by
  induction fuel generalizing dir with
  | zero => rfl
  | succ n ih =>
    rw [walkFiles_succ, walkFiles_succ]
    have hd : dirents { env with readFile := rf } dir = dirents env dir := rfl
    rw [hd]
    apply flatMap_congr_mem
    intro e _
    unfold entryFiles
    dsimp only
    rw [ih]

theorem checkFile_empty_query (env : Env) (p : String) :
    checkFile env [] p = (env.readFile p).isSome := by
  unfold checkFile
  cases env.readFile p <;> simp [checkRead, bytesContains]

/-! ## The claims -/

/-- C1: every path emitted as a match, printed by `main` or held by a walker
that is blocked in `results <- name`, names a non-directory entry of a
directory whose listing succeeded, the read of the file succeeded, and the
bytes read contain the query as a contiguous block. -/
theorem C1_match_sound (env : Env) (s : State) (hr : Reachable env s) (p : String)
    (hp : p ∈ matchLines s.stdout ∨ ∃ w ∈ s.walkers, ∃ rest, w.pc = .sendResult p rest) :
    (∃ dir entries, ∃ e : DirEntry, env.readDir dir = some entries ∧ e ∈ entries ∧
        e.isDir = false ∧ p = env.join dir e.name) ∧
      ∃ b, env.readFile p = some b ∧ queryOf env.args <:+: b := by
  have hl := local_of_reachable hr
  rcases hp with hp | ⟨w, hw, rest, hpc⟩
  · exact matchOk_spec (hl.outOk p hp)
  · obtain ⟨hq, hok⟩ := hl.walkersOk w hw
    rw [hpc] at hok
    exact matchOk_spec ⟨hok.1.mem, hq ▸ hok.2⟩

/-- C1 at scenario 2 of the specification: the printed path `t2/x.txt`. -/
theorem C1_witness :
    "t2/x.txt" ∈ matchLines t2Final.stdout ∧
    ((∃ dir entries, ∃ e : DirEntry, t2Env.readDir dir = some entries ∧ e ∈ entries ∧
        e.isDir = false ∧ "t2/x.txt" = t2Env.join dir e.name) ∧
      ∃ b, t2Env.readFile "t2/x.txt" = some b ∧ queryOf t2Env.args <:+: b) :=
  ⟨by decide, C1_match_sound t2Env t2Final ⟨t2Sched, t2_run⟩ "t2/x.txt" (Or.inl (by decide))⟩

/-- C3: in every state of every run, so after every prefix of the events the
consumer has received, `0 ≤ nmatches ≤ nfiles`; more precisely the matches
received plus the walkers whose token was received and whose match is not yet
sent do not exceed the tokens received, the counters are the lengths of the
two event logs, every printed match is among the visited files, and a
printed summary has `nmatches ≤ nfiles`. -/
theorem C3_matches_le_files (env : Env) (s : State) (hr : Reachable env s) :
    0 ≤ s.nmatches ∧ s.nmatches ≤ s.nfiles ∧
    s.nmatches + wsum postVisit s.walkers ≤ s.nfiles ∧
    s.nmatches = (matchLines s.stdout).length ∧ s.nfiles = s.visited.length ∧
    (matchLines s.stdout).Subperm s.visited ∧
    ∀ nm nf, OutLine.found nm nf ∈ s.stdout → nm ≤ nf := by
  have h := safe_of_reachable hr
  have hle : s.nmatches ≤ s.nfiles := le_trans (Nat.le_add_right _ _) h.matchLe
  refine ⟨Nat.zero_le _, hle, h.matchLe, h.nmatchesEq, h.nfilesEq, ?_, ?_⟩
  · have hsub := (output_of_reachable hr).sub
    rw [← Multiset.coe_le]
    calc (↑(matchLines s.stdout) : Multiset String)
        ≤ ↑(matchLines s.stdout)
            + wsum (fun w => (↑(postMatches env w) : Multiset String)) s.walkers :=
          Multiset.le_add_right _ _
      _ = ↑(s.visited.filter (checkFile env (queryOf env.args))) := hsub
      _ ≤ ↑s.visited := Multiset.coe_le.2 (List.filter_sublist _).subperm
  · intro nm nf hf
    obtain ⟨_, h1, h2⟩ := h.found nm nf hf
    omega

/-- C3 at the end of scenario 5 of the specification. -/
theorem C3_witness :
    0 ≤ t4Final.nmatches ∧ t4Final.nmatches ≤ t4Final.nfiles ∧
    t4Final.nmatches + wsum postVisit t4Final.walkers ≤ t4Final.nfiles ∧
    t4Final.nmatches = (matchLines t4Final.stdout).length ∧
    t4Final.nfiles = t4Final.visited.length ∧
    (matchLines t4Final.stdout).Subperm t4Final.visited ∧
    ∀ nm nf, OutLine.found nm nf ∈ t4Final.stdout → nm ≤ nf :=
  C3_matches_le_files t4Env t4Final ⟨t4Sched, t4_run⟩

/-- C8: for a non-empty argument list `q :: rest`, the query is the bytes of
`q`, the roots are `rest`, or `["."]` when `rest` is empty, `main` goes on to
launch exactly these roots, and every walker ever spawned searches for that
query; for the empty argument list `main` prints `no arguments` and returns,
and the run has no other state: no walker is started and no summary printed. -/
theorem C8_arguments (env : Env) :
    (∀ q rest, env.args = q :: rest →
      queryOf env.args = bytesOf q ∧
      rootsOf env.args = (if rest = [] then ["."] else rest) ∧
      step env init .main = some { init with mainPc := .launch (rootsOf env.args) } ∧
      ∀ s, Reachable env s → ∀ w ∈ s.walkers, w.query = bytesOf q) ∧
    (env.args = [] →
      step env init .main = some noArgsFinal ∧
      ∀ s, Reachable env s →
        (s = init ∨ s = noArgsFinal) ∧ s.walkers = [] ∧
        ∀ nm nf, OutLine.found nm nf ∉ s.stdout) := by
  constructor
  · intro q rest ha
    have hq : queryOf env.args = bytesOf q := by simp [queryOf, ha]
    refine ⟨hq, ?_, ?_, ?_⟩
    · cases rest with
      | nil => simp [rootsOf, ha]
      | cons r rs => simp [rootsOf, ha]
    · simp [step, init, stepMain, ha]
    · intro s hr w hw
      rw [← hq]
      exact ((local_of_reachable hr).walkersOk w hw).1
  · intro ha
    refine ⟨?_, ?_⟩
    · simp [step, init, stepMain, ha, noArgsFinal]
    · intro s hr
      have h := reachable_of_no_args ha hr
      refine ⟨h, ?_, ?_⟩
      · rcases h with rfl | rfl <;> rfl
      · rcases h with rfl | rfl <;> simp [init, noArgsFinal]

/-- C10: at every instant the walkers inside the protected section of
`dirents` are as many as the tokens held in `dirsSema`, at most 20, and those
inside the protected section of `checkFile` as many as the tokens held in
`filesSema`, at most 180; a walker takes exactly one token when it enters a
section and gives exactly one back when it leaves it, also when `ReadDir` or
`ReadFile` failed. -/
theorem C10_semaphores (env : Env) (s : State) (hr : Reachable env s) :
    wsum holdsDir s.walkers = s.dirsSema ∧ s.dirsSema ≤ 20 ∧
    wsum holdsFile s.walkers = s.filesSema ∧ s.filesSema ≤ 180 ∧
    ∀ i w, s.walkers[i]? = some w →
      (w.pc = .enter → ∀ s', step env s (.walker i) = some s' →
        s'.dirsSema = s.dirsSema + 1 ∧ s'.filesSema = s.filesSema) ∧
      (∀ r, w.pc = .listed r → ∃ s', step env s (.walker i) = some s' ∧
        s'.dirsSema + 1 = s.dirsSema ∧ s'.filesSema = s.filesSema ∧ holdsDir w = 1 ∧
        ∀ w', s'.walkers[i]? = some w' → holdsDir w' = 0) ∧
      (∀ name rest, w.pc = .acquire name rest → ∀ s', step env s (.walker i) = some s' →
        s'.filesSema = s.filesSema + 1 ∧ s'.dirsSema = s.dirsSema) ∧
      (∀ name r rest, w.pc = .read name r rest → ∃ s', step env s (.walker i) = some s' ∧
        s'.filesSema + 1 = s.filesSema ∧ s'.dirsSema = s.dirsSema ∧ holdsFile w = 1 ∧
        ∀ w', s'.walkers[i]? = some w' → holdsFile w' = 0) := by
  have h := safe_of_reachable hr
  refine ⟨h.dirsEq.symm, h.dirsLe, h.filesEq.symm, h.filesLe, ?_⟩
  intro i w hw
  have hi : i < s.walkers.length := (List.getElem?_eq_some.1 hw).1
  obtain ⟨q, dir, pc⟩ := w
  refine ⟨?_, ?_, ?_, ?_⟩
  · intro hpc s' hs
    dsimp only at hpc
    subst hpc
    rw [step_walker_eq h.noPanic hw] at hs
    simp only [stepWalker] at hs
    split at hs
    · simp only [Option.some.injEq] at hs
      subst hs
      exact ⟨rfl, rfl⟩
    · simp at hs
  · intro r hpc
    dsimp only at hpc
    subst hpc
    have hpos : 0 < s.dirsSema := by
      have := h.dirsEq
      rw [wsum_get holdsDir hw] at this
      simp only [holdsDir] at this
      omega
    rw [step_walker_eq h.noPanic hw]
    simp only [stepWalker, hpos, if_true]
    refine ⟨_, rfl, by dsimp only; omega, rfl, rfl, ?_⟩
    intro w' hw'
    dsimp only at hw'
    rw [List.getElem?_set, if_pos rfl, if_pos hi] at hw'
    simp only [Option.some.injEq] at hw'
    subst hw'
    rfl
  · intro name rest hpc s' hs
    dsimp only at hpc
    subst hpc
    rw [step_walker_eq h.noPanic hw] at hs
    simp only [stepWalker] at hs
    split at hs
    · simp only [Option.some.injEq] at hs
      subst hs
      exact ⟨rfl, rfl⟩
    · simp at hs
  · intro name r rest hpc
    dsimp only at hpc
    subst hpc
    have hpos : 0 < s.filesSema := by
      have := h.filesEq
      rw [wsum_get holdsFile hw] at this
      simp only [holdsFile] at this
      omega
    rw [step_walker_eq h.noPanic hw]
    simp only [stepWalker, hpos, if_true]
    refine ⟨_, rfl, by dsimp only; omega, rfl, rfl, ?_⟩
    intro w' hw'
    dsimp only at hw'
    rw [List.getElem?_set, if_pos rfl, if_pos hi] at hw'
    simp only [Option.some.injEq] at hw'
    subst hw'
    cases checkRead q r <;> rfl

/-- C10 at the end of scenario 3 of the specification. -/
theorem C10_witness :
    wsum holdsDir t2RecFinal.walkers = t2RecFinal.dirsSema ∧ t2RecFinal.dirsSema ≤ 20 ∧
    wsum holdsFile t2RecFinal.walkers = t2RecFinal.filesSema ∧ t2RecFinal.filesSema ≤ 180 :=
  have h := C10_semaphores t2RecEnv t2RecFinal ⟨t2RecSched, t2Rec_run⟩
  ⟨h.1, h.2.1, h.2.2.1, h.2.2.2.1⟩

/-- C2: when the traversal from the roots stays within some depth, every run
can be completed, a completed run with arguments has printed its summary, and
the `nfiles` of a printed summary is the number of non-directory entries
reachable from the roots under the recursion policy (`allFiles`: the direct
entries of the roots without `-r`, all descendants with `-r`), counting only
the entries of directories whose listing succeeded; a root whose listing
fails contributes no file, hence nothing to `nfiles` or `nmatches`, and the
files of the other roots are all counted. -/
theorem C2_nfiles (env : Env) (fuel : Nat)
    (hcov : ∀ r ∈ rootsOf env.args, covered env fuel r = true) :
    (∀ s, Reachable env s → ∃ sched s', run env s sched = some s' ∧ s'.mainPc = .returned) ∧
    (∀ s, Reachable env s → s.mainPc = .returned → env.args ≠ [] →
      OutLine.found s.nmatches s.nfiles ∈ s.stdout) ∧
    (∀ s nm nf, Reachable env s → OutLine.found nm nf ∈ s.stdout →
      nf = (allFiles env fuel).length ∧
      nm = ((allFiles env fuel).filter (checkFile env (queryOf env.args))).length) ∧
    (env.recursive = false → allFiles env fuel = (rootsOf env.args).flatMap (rootFiles env)) ∧
    (∀ dir, covered env fuel dir = true →
      walkFiles env fuel dir = (dirents env dir).flatMap (entryFiles env fuel dir)) ∧
    (∀ root, env.readDir root = none → walkFiles env fuel root = []) ∧
    (∀ l₁ root l₂, rootsOf env.args = l₁ ++ root :: l₂ → env.readDir root = none →
      allFiles env fuel = l₁.flatMap (walkFiles env fuel) ++ l₂.flatMap (walkFiles env fuel)) := by
  refine ⟨fun s hr => can_complete hcov hr, ?_, ?_, ?_, fun dir h => walkFiles_eq_entries h,
    fun root h => walkFiles_of_readDir_none fuel h, ?_⟩
  · intro s hr hm ha
    exact (output_of_reachable hr).summary hm ha
  · intro s nm nf hr hf
    obtain ⟨hm, h1, h2⟩ := (safe_of_reachable hr).found nm nf hf
    obtain ⟨_, _, h3, h4⟩ := returned_results hcov hr hm
    exact ⟨h2.trans h3, h1.trans h4⟩
  · intro hrec
    unfold allFiles
    apply flatMap_congr_mem
    intro r hr
    cases fuel with
    | zero => exact absurd (hcov r hr) (by simp [covered])
    | succ n =>
      rw [← walkFiles_one_of_not_recursive hrec r, walkFiles_succ, walkFiles_succ]
      apply flatMap_congr_mem
      intro e _
      simp [entryFiles, hrec]
  · intro l₁ root l₂ hl hnone
    unfold allFiles
    rw [hl, List.flatMap_append, List.flatMap_cons, walkFiles_of_readDir_none fuel hnone,
      List.nil_append]

/-- C2 at scenario 3 of the specification: `Found 2 matches in 2 files`. -/
theorem C2_witness :
    (∀ r ∈ rootsOf t2RecEnv.args, covered t2RecEnv 2 r = true) ∧
    OutLine.found 2 2 ∈ t2RecFinal.stdout ∧
    2 = (allFiles t2RecEnv 2).length ∧
    2 = ((allFiles t2RecEnv 2).filter (checkFile t2RecEnv (queryOf t2RecEnv.args))).length :=
  ⟨by decide, by decide,
    (C2_nfiles t2RecEnv 2 (by decide)).2.2.1 t2RecFinal 2 2 ⟨t2RecSched, t2Rec_run⟩ (by decide)⟩

/-- C4: when the traversal stays within some depth and the reachable file
paths are pairwise distinct, a completed run exists, and in every completed
run each reachable file whose read succeeds and whose content contains the
query is in the match output exactly once, next to its one token on `count`;
no path is printed twice, the printed paths are exactly those files, and
`nmatches` is their number. -/
theorem C4_each_match_once (env : Env) (fuel : Nat)
    (hcov : ∀ r ∈ rootsOf env.args, covered env fuel r = true)
    (hnd : (allFiles env fuel).Nodup) :
    (∃ sched s, run env init sched = some s ∧ s.mainPc = .returned) ∧
    ∀ s, Reachable env s → s.mainPc = .returned →
      (∀ p ∈ allFiles env fuel, ∀ b, env.readFile p = some b → queryOf env.args <:+: b →
        (matchLines s.stdout).count p = 1 ∧ s.visited.count p = 1) ∧
      (matchLines s.stdout).Nodup ∧
      (∀ p, p ∈ matchLines s.stdout ↔
        p ∈ allFiles env fuel ∧ ∃ b, env.readFile p = some b ∧ queryOf env.args <:+: b) ∧
      s.nmatches =
        ((allFiles env fuel).filter (checkFile env (queryOf env.args))).length := by
  refine ⟨can_complete hcov (Reachable.init env), ?_⟩
  intro s hr hm
  obtain ⟨hv, hmt, _, hn⟩ := returned_results hcov hr hm
  have hndm : (matchLines s.stdout).Nodup := hmt.nodup_iff.2 (hnd.filter _)
  have hmem : ∀ p, p ∈ matchLines s.stdout ↔
      p ∈ allFiles env fuel ∧ ∃ b, env.readFile p = some b ∧ queryOf env.args <:+: b := by
    intro p
    rw [hmt.mem_iff, List.mem_filter, checkFile_eq_true]
  refine ⟨?_, hndm, hmem, hn⟩
  intro p hp b hb hq
  constructor
  · exact List.count_eq_one_of_mem hndm ((hmem p).2 ⟨hp, b, hb, hq⟩)
  · exact List.count_eq_one_of_mem (hv.nodup_iff.2 hnd) (hv.mem_iff.2 hp)

/-- C4 at scenario 3 of the specification. -/
theorem C4_witness :
    (∀ r ∈ rootsOf t2RecEnv.args, covered t2RecEnv 2 r = true) ∧
    (allFiles t2RecEnv 2).Nodup ∧
    (matchLines t2RecFinal.stdout).Nodup ∧
    t2RecFinal.nmatches =
      ((allFiles t2RecEnv 2).filter (checkFile t2RecEnv (queryOf t2RecEnv.args))).length :=
  have h := (C4_each_match_once t2RecEnv 2 (by decide) (by decide)).2 t2RecFinal
    ⟨t2RecSched, t2Rec_run⟩ rfl
  ⟨by decide, by decide, h.2.1, h.2.2.2⟩

/-- The results of a completed run without `-r`. -/
theorem not_recursive_results {env : Env} (hrec : env.recursive = false) {s : State}
    (hr : Reachable env s) (hm : s.mainPc = .returned) :
    (matchLines s.stdout).Perm ((rootsOf env.args).flatMap (scanRoot env)) ∧
    s.visited.Perm ((rootsOf env.args).flatMap (rootFiles env)) ∧
    s.nmatches = ((rootsOf env.args).flatMap (scanRoot env)).length ∧
    s.nfiles = ((rootsOf env.args).flatMap (rootFiles env)).length := by
  have hcov : ∀ r ∈ rootsOf env.args, covered env 1 r = true :=
    fun r _ => covered_one_of_not_recursive hrec r
  have h := returned_results hcov hr hm
  rw [allFiles_of_not_recursive hrec, filter_flatMap_rootFiles] at h
  exact ⟨h.2.1, h.1, h.2.2.2, h.2.2.1⟩

theorem scan_congr {env env' : Env} (ha : env'.args = env.args) (hj : env'.join = env.join)
    {roots : List String} (hd : ∀ r ∈ roots, env'.readDir r = env.readDir r)
    (hf : ∀ r ∈ roots, ∀ p ∈ rootFiles env r, env'.readFile p = env.readFile p) :
    roots.flatMap (rootFiles env') = roots.flatMap (rootFiles env) ∧
    roots.flatMap (scanRoot env') = roots.flatMap (scanRoot env) := by
  have hrf : ∀ r ∈ roots, rootFiles env' r = rootFiles env r := by
    intro r hr
    simp only [rootFiles, dirents, hd r hr, hj]
  refine ⟨flatMap_congr_mem hrf, flatMap_congr_mem ?_⟩
  intro r hr
  simp only [scanRoot, hrf r hr, ha]
  apply List.filter_congr
  intro p hp
  simp only [checkFile, hf r hr p hp]

/-- C5: without `-r` every run can be completed, and in a completed run the
match paths, as a multiset, and the counts `nmatches` and `nfiles` are those
of the union over the roots of a scan of the direct non-directory entries of
that root; they are the same for every filesystem that has the same listings
of the roots and the same contents of their direct files, whatever its
subdirectories hold. -/
theorem C5_single_level (env : Env) (hrec : env.recursive = false) :
    (∃ sched s, run env init sched = some s ∧ s.mainPc = .returned) ∧
    ∀ s, Reachable env s → s.mainPc = .returned →
      (matchLines s.stdout).Perm ((rootsOf env.args).flatMap (scanRoot env)) ∧
      s.visited.Perm ((rootsOf env.args).flatMap (rootFiles env)) ∧
      s.nmatches = ((rootsOf env.args).flatMap (scanRoot env)).length ∧
      s.nfiles = ((rootsOf env.args).flatMap (rootFiles env)).length ∧
      ∀ env' s', env'.recursive = false → env'.args = env.args → env'.join = env.join →
        (∀ r ∈ rootsOf env.args, env'.readDir r = env.readDir r) →
        (∀ r ∈ rootsOf env.args, ∀ p ∈ rootFiles env r, env'.readFile p = env.readFile p) →
        Reachable env' s' → s'.mainPc = .returned →
        (matchLines s'.stdout).Perm (matchLines s.stdout) ∧
        s'.nmatches = s.nmatches ∧ s'.nfiles = s.nfiles := by
  have hcov : ∀ r ∈ rootsOf env.args, covered env 1 r = true :=
    fun r _ => covered_one_of_not_recursive hrec r
  refine ⟨can_complete hcov (Reachable.init env), ?_⟩
  intro s hr hm
  obtain ⟨h1, h2, h3, h4⟩ := not_recursive_results hrec hr hm
  refine ⟨h1, h2, h3, h4, ?_⟩
  intro env' s' hrec' ha hj hd hf hr' hm'
  obtain ⟨g1, _, g3, g4⟩ := not_recursive_results hrec' hr' hm'
  obtain ⟨c1, c2⟩ := scan_congr ha hj hd hf
  rw [ha, c2] at g1 g3
  rw [ha, c1] at g4
  exact ⟨g1.trans h1.symm, g3.trans h3.symm, g4.trans h4.symm⟩

/-- C5 at scenario 2 of the specification: `t2/x.txt` only, `Found 1 matches in 1 files`. -/
theorem C5_witness :
    t2Env.recursive = false ∧
    matchLines t2Final.stdout = ["t2/x.txt"] ∧ OutLine.found 1 1 ∈ t2Final.stdout ∧
    (matchLines t2Final.stdout).Perm ((rootsOf t2Env.args).flatMap (scanRoot t2Env)) ∧
    t2Final.nmatches = ((rootsOf t2Env.args).flatMap (scanRoot t2Env)).length ∧
    t2Final.nfiles = ((rootsOf t2Env.args).flatMap (rootFiles t2Env)).length :=
  have h := (C5_single_level t2Env rfl).2 t2Final ⟨t2Sched, t2_run⟩ rfl
  ⟨rfl, by decide, by decide, h.1, h.2.2.1, h.2.2.2.1⟩

/-- C6: when the read of a file fails, `checkFile` is false for every query
and the walker goes on with the next entry, one diagnostic written and no
match sent; no printed match is a file whose read fails; yet, for a traversal
that stays within some depth, every run can be completed and in a completed
run the tokens received are exactly the reachable files, failed reads
included (which files are reachable does not depend on `ReadFile`), and
`nfiles` counts them all. -/
theorem C6_read_failure (env : Env) (fuel : Nat)
    (hcov : ∀ r ∈ rootsOf env.args, covered env fuel r = true) :
    (∀ q name, env.readFile name = none → checkFile env q name = false) ∧
    (∀ s i w name rest, s.panicked = false → s.walkers[i]? = some w →
      w.pc = .read name none rest → 0 < s.filesSema →
      step env s (.walker i) =
        some { s with filesSema := s.filesSema - 1, stderr := s.stderr + 1,
                      walkers := s.walkers.set i { w with pc := .loop rest } }) ∧
    (∀ s, Reachable env s → ∀ p ∈ matchLines s.stdout, env.readFile p ≠ none) ∧
    (∃ sched s, run env init sched = some s ∧ s.mainPc = .returned) ∧
    (∀ s, Reachable env s → s.mainPc = .returned →
      s.visited.Perm (allFiles env fuel) ∧ s.nfiles = (allFiles env fuel).length ∧
      ∀ p, s.visited.count p = (allFiles env fuel).count p) ∧
    (∀ rf, allFiles { env with readFile := rf } fuel = allFiles env fuel) := by
  refine ⟨?_, ?_, ?_, can_complete hcov (Reachable.init env), ?_, ?_⟩
  · intro q name h
    simp [checkFile, h, checkRead]
  · intro s i w name rest hnp hw hpc hpos
    obtain ⟨q, dir, pc⟩ := w
    dsimp only at hpc
    subst hpc
    rw [step_walker_eq hnp hw]
    simp [stepWalker, hpos, checkRead]
  · intro s hr p hp h
    obtain ⟨b, hb, _⟩ := (matchOk_spec ((local_of_reachable hr).outOk p hp)).2
    rw [h] at hb
    exact absurd hb (by simp)
  · intro s hr hm
    obtain ⟨hv, _, hn, _⟩ := returned_results hcov hr hm
    exact ⟨hv, hn, fun p => hv.count_eq p⟩
  · intro rf
    unfold allFiles
    exact flatMap_congr_mem fun r _ => walkFiles_readFile_irrelevant env rf fuel r

/-- C6 at scenario 5 of the specification: `Found 1 matches in 2 files`. -/
theorem C6_witness :
    (∀ r ∈ rootsOf t4Env.args, covered t4Env 1 r = true) ∧
    t4Env.readFile "t4/noperm" = none ∧
    "t4/noperm" ∉ matchLines t4Final.stdout ∧
    OutLine.found 1 2 ∈ t4Final.stdout ∧
    t4Final.visited.Perm (allFiles t4Env 1) ∧
    t4Final.visited.count "t4/noperm" = 1 :=
  have h := (C6_read_failure t4Env 1 (by decide)).2.2.2.2.1 t4Final ⟨t4Sched, t4_run⟩ rfl
  ⟨by decide, by decide, by decide, by decide, h.1, by decide⟩

/-- C7 as stated fails: the tree of scenario 5 searched for the empty query
ends with one match in two files, the unreadable file being visited and not
matched. -/
theorem C7_counterexample :
    ¬ ∀ (env : Env) (s : State), queryOf env.args = [] → Reachable env s →
      s.mainPc = .returned →
      (matchLines s.stdout).Perm s.visited ∧ s.nmatches = s.nfiles := by
  intro h
  have := (h t4EmptyEnv t4EmptyFinal (by decide) ⟨t4Sched, t4Empty_run⟩ rfl).2
  exact absurd this (by decide)

/-- C7 (amended): for the empty query, in a completed run every visited file
whose read succeeded is reported as a match and no other: the match paths
are, as a multiset, the visited paths whose read succeeded, `nmatches` is
their number, and when no read of a visited file failed the match paths are
the visited paths and `nmatches` equals `nfiles`. -/
theorem C7_empty_query (env : Env) (hq : queryOf env.args = []) (s : State)
    (hr : Reachable env s) (hm : s.mainPc = .returned) :
    (matchLines s.stdout).Perm (s.visited.filter fun p => (env.readFile p).isSome) ∧
    s.nmatches = (s.visited.filter fun p => (env.readFile p).isSome).length ∧
    ((∀ p ∈ s.visited, env.readFile p ≠ none) →
      (matchLines s.stdout).Perm s.visited ∧ s.nmatches = s.nfiles) := by
  have hs := safe_of_reachable hr
  have hp := matches_of_finished hr (wg_zero_of_returned hs hm)
  rw [hq] at hp
  have hfun : checkFile env [] = fun p => (env.readFile p).isSome :=
    funext (checkFile_empty_query env)
  rw [hfun] at hp
  refine ⟨hp, by rw [hs.nmatchesEq, hp.length_eq], ?_⟩
  intro hall
  have hfil : s.visited.filter (fun p => (env.readFile p).isSome) = s.visited := by
    rw [List.filter_eq_self]
    intro p hpv
    cases h : env.readFile p with
    | none => exact absurd h (hall p hpv)
    | some b => rfl
  rw [hfil] at hp
  exact ⟨hp, by rw [hs.nmatchesEq, hs.nfilesEq, hp.length_eq]⟩

/-- C7 (amended) on the tree of scenario 5 searched for the empty query. -/
theorem C7_witness :
    queryOf t4EmptyEnv.args = [] ∧ t4EmptyFinal.mainPc = .returned ∧
    (matchLines t4EmptyFinal.stdout).Perm
      (t4EmptyFinal.visited.filter fun p => (t4EmptyEnv.readFile p).isSome) ∧
    t4EmptyFinal.nmatches =
      (t4EmptyFinal.visited.filter fun p => (t4EmptyEnv.readFile p).isSome).length :=
  have h := C7_empty_query t4EmptyEnv (by decide) t4EmptyFinal ⟨t4Sched, t4Empty_run⟩ rfl
  ⟨by decide, rfl, h.1, h.2.1⟩

/-- C9 as stated fails: with two roots that do not exist, the walker of the
first can be done before the second is registered, and the counter reaches
zero twice. -/
theorem C9_counterexample :
    ¬ ∀ (env : Env) (sched : List Action) (s : State), env.args ≠ [] →
      run env init sched = some s → s.mainPc = .returned →
      zeroHits env init sched = 1 := by
  intro h
  have := h twoRootsEnv twoRootsSched twoRootsFinal (by decide) twoRoots_run rfl
  exact absurd this (by decide)

/-- C9 (amended): in every reachable state the counter of the wait group is
the number of walkers that have not called `Done` plus the registrations
(`Add(1)`) whose walker is not yet spawned, so it is at least the number of
active walkers and is not zero while one is active; once `main` has
registered its last root the counter reaches zero at most once, and exactly
once in a run that completes; `results` is closed at most once,
exactly once in a completed run with arguments, only when every walker has
finished, and no panic (send on or close of a closed channel, negative
counter) ever happens. -/
theorem C9_waitgroup (env : Env) (s : State) (hr : Reachable env s) :
    s.wg = ((wsum active s.walkers + wsum pendingReg s.walkers + mainReg s.mainPc : Nat) : Int) ∧
    ((wsum active s.walkers : Nat) : Int) ≤ s.wg ∧
    (s.wg = 0 → ∀ w ∈ s.walkers, w.pc = .finished) ∧
    s.panicked = false ∧
    (s.closer = .woken → s.wg = 0 ∧ s.closed = false) ∧
    (s.closed = true → s.wg = 0 ∧ s.closer = .exited ∧ ∀ w ∈ s.walkers, w.pc = .finished) ∧
    ∀ sched s', run env s sched = some s' →
      closeCount env s sched ≤ 1 ∧
      (s.closed = false → s'.mainPc = .returned → env.args ≠ [] →
        closeCount env s sched = 1) ∧
      (launchDone s.mainPc = true →
        zeroHits env s sched ≤ 1 ∧
        (s.wg ≠ 0 → s'.mainPc = .returned → zeroHits env s sched = 1)) := by
  have h := safe_of_reachable hr
  have hph := h.phase
  refine ⟨h.wgEq, ?_, all_finished_of_wg_zero h, h.noPanic, ?_, ?_, ?_⟩
  · have := h.wgEq
    omega
  · intro hc
    unfold PhaseOk at hph
    split at hph <;> simp_all
  · intro hc
    have hwg := closed_wg_zero hph hc
    refine ⟨hwg, ?_, all_finished_of_wg_zero h hwg⟩
    unfold PhaseOk at hph
    split at hph <;> simp_all
  · intro sched s' hrun
    have hcc := closeCount_eq hrun
    refine ⟨?_, ?_, ?_⟩
    · rw [hcc]
      split <;> omega
    · intro hc hm ha
      rw [hcc, if_pos ⟨hc, closed_of_returned (safe_of_reachable (hr.run hrun)) hm ha⟩]
    · intro hd
      have hle := zeroHits_le_one hr hd hrun
      refine ⟨hle, ?_⟩
      intro hwg hm
      have := zeroHits_pos hr hwg hrun
        (wg_zero_of_returned (safe_of_reachable (hr.run hrun)) hm)
      omega

/-- C9 (amended) on the run over two roots that do not exist. -/
theorem C9_witness :
    twoRootsEnv.args ≠ [] ∧ twoRootsFinal.mainPc = .returned ∧
    closeCount twoRootsEnv init twoRootsSched = 1 ∧
    ((wsum active twoRootsFinal.walkers : Nat) : Int) ≤ twoRootsFinal.wg :=
  have h := C9_waitgroup twoRootsEnv init (Reachable.init twoRootsEnv)
  have h' := C9_waitgroup twoRootsEnv twoRootsFinal ⟨twoRootsSched, twoRoots_run⟩
  ⟨by decide, rfl,
    (h.2.2.2.2.2.2 twoRootsSched twoRootsFinal twoRoots_run).2.1 rfl rfl (by decide), h'.2.1⟩


end F
